import Mathlib

/-!
Verification development for `cifar10_tf2/code/src/main_int8.cc`.

A shallow embedding of the batched int8 classification pipeline: image-name
selection (`ListImages`), fixed-point preprocessing, the batch loop of
`run_CNN`, softmax, top-K ranking and the exit status of `main`.

Conventions of the embedding:
* `unsigned int` values are natural numbers reduced modulo `2^32`, `size_t`
  values modulo `2^64`;
* `float` and `double` arithmetic is IEEE 754 binary32 and binary64 arithmetic,
  every operation rounded to nearest, ties to even;
* undefined behaviour (reading past the end of a vector, `top()` of an empty
  queue) is the result `none`.
-/

namespace MainInt8

/-! ## Binary floating-point arithmetic

The program computes in `float` (IEEE 754 binary32) and `double` (binary64). A finite
value is a number of the field `K`; an operation computes the exact result and rounds
it to the nearest value of the format, ties to even. -/

/-- Exponent of the binade of `x`: `⌊log2 |x|⌋`, and `emin` in the subnormal range. -/
def binade {K : Type} [LinearOrderedField K] [FloorRing K] (emin : Int) (x : K) : Int :=
  max (Int.log 2 |x|) emin

/-- Spacing of the values of the format with `p` significand bits around `x`. -/
def ulp {K : Type} [LinearOrderedField K] [FloorRing K] (p : Nat) (emin : Int) (x : K) : K :=
  (2 : K) ^ (binade emin x - ((p : Int) - 1))

/-- Nearest integer, a tie going to the even one. -/
def roundHalfEven {K : Type} [LinearOrderedField K] [FloorRing K] (q : K) : Int :=
  if 2 * Int.fract q < 1 then ⌊q⌋
  else if 1 < 2 * Int.fract q then ⌊q⌋ + 1
  else if ⌊q⌋ % 2 = 0 then ⌊q⌋ else ⌊q⌋ + 1

/-- Rounding to the nearest value with `p` significand bits and least normal exponent
`emin`, ties to even (no bound on the exponent above). -/
def roundTo {K : Type} [LinearOrderedField K] [FloorRing K] (p : Nat) (emin : Int) (x : K) : K :=
  (roundHalfEven (x / ulp p emin x) : K) * ulp p emin x

/-- Rounding to binary32 (`float`): 24 significand bits, least normal exponent -126. -/
def f32 {K : Type} [LinearOrderedField K] [FloorRing K] (x : K) : K := roundTo 24 (-126) x

/-- Rounding to binary64 (`double`): 53 significand bits, least normal exponent -1022. -/
def f64 {K : Type} [LinearOrderedField K] [FloorRing K] (x : K) : K := roundTo 53 (-1022) x

/-- A finite `float`: the value `m * 2^e` with `|m| < 2^24` and `-149 ≤ e ≤ 104`. -/
structure Binary32 where
  m : Int
  e : Int
  hm : |m| < 2 ^ 24
  he : -149 ≤ e ∧ e ≤ 104

/-- The number a finite `float` stands for. -/
def Binary32.val {K : Type} [LinearOrderedField K] (s : Binary32) : K :=
  (s.m : K) * (2 : K) ^ s.e

/-- The `float` 1. -/
def Binary32.one : Binary32 := ⟨1, 0, by decide, by decide⟩

/-- The `float` 3. -/
def Binary32.three : Binary32 := ⟨3, 0, by decide, by decide⟩

/-- The `float` 64, the scale of a tensor with fix position 6. -/
def Binary32.scale64 : Binary32 := ⟨1, 6, by decide, by decide⟩

/-- The `float` 128, the scale of a tensor with fix position 7. -/
def Binary32.scale128 : Binary32 := ⟨1, 7, by decide, by decide⟩

/-- The `float` 1/4, the scale of a tensor with fix position 2. -/
def Binary32.quarter : Binary32 := ⟨1, -2, by decide, by decide⟩

/-! ## Fixed-point preprocessing (lines 215-230) -/

/-- Integral part of a value, rounding toward zero: the value part of a C++
floating-point to integer conversion. -/
def truncToInt (x : ℚ) : Int := if 0 ≤ x then ⌊x⌋ else ⌈x⌉

/-- Reduction of an integer into the `int8_t` range by wrap-around modulo `2^8`. -/
def wrapInt8 (z : Int) : Int := (z + 128) % 256 - 128

/-- The cast `(int8_t)(x)` of a `float` as the compiled program performs it: the
value is truncated toward zero to an `int` and the `int` is narrowed to `int8_t`
modulo `2^8`. A truncated value outside the range of `int` has no defined result. -/
def castInt8 (x : ℚ) : Option Int :=
  if -2 ^ 31 ≤ truncToInt x ∧ truncToInt x < 2 ^ 31 then some (wrapInt8 (truncToInt x))
  else none

/-- The expression `(value/255.0f-0.5f)*2*input_scale` of line 224: a `float` division,
subtraction and two multiplications, each rounded to binary32. No operation overflows:
the first three results are at most 1 in magnitude and the last at most the scale. -/
def quantValue (v : Nat) (input_scale : Binary32) : ℚ :=
  f32 (f32 (f32 (f32 ((v : ℚ) / 255) - 1 / 2) * 2) * input_scale.val)

/-- The code stored at line 224 for the pixel byte `v`:
`(int8_t)((v/255.0f-0.5f)*2*input_scale)`. -/
def quantize (v : Nat) (input_scale : Binary32) : Option Int :=
  castInt8 (quantValue v input_scale)

/-- The conversion described by the specification: round to the nearest integer,
then clamp to `[-128, 127]`. -/
def specRoundClampInt8 (x : ℚ) : Int := max (-128) (min 127 (round x))

/-- The index expression `i*inSize+h*inWidth*3+w*3+c` of line 224 as a number. -/
def offsetIndex (inSize inWidth i h w c : Nat) : Nat :=
  i * inSize + h * inWidth * 3 + w * 3 + c

/-- The index of line 224 as the program computes it: the slot `i` is an
`unsigned int`, so the sum is an `unsigned int`, reduced modulo `2^32`. -/
def offset (inSize inWidth i h w c : Nat) : Nat :=
  offsetIndex inSize inWidth i h w c % 2 ^ 32

/-- The three nested loops of lines 221-228 for the image in slot `i`: the list of
writes `(index into imageInputs, stored code)` in program order. `image2 h w c` is
the byte `image2.at<Vec3b>(h, w)[c]`. -/
def preprocess (inSize inHeight inWidth : Nat) (input_scale : Binary32) (i : Nat)
    (image2 : Nat → Nat → Nat → Fin 256) : List (Nat × Option Int) :=
  (List.range inHeight).flatMap fun h =>
    (List.range inWidth).flatMap fun w =>
      (List.range 3).map fun c =>
        (offset inSize inWidth i h w c, quantize (image2 h w c).val input_scale)

/-! ## Resize geometry (lines 219-220) -/

/-- Modelled from the spec: the OpenCV type `cv::Size`, whose declaration is not part
of the sources; `Size(a, b)` has width `a` and height `b`. -/
structure Size where
  width : Nat
  height : Nat
  deriving DecidableEq, Repr

/-- Row and column counts of a `cv::Mat`. -/
structure MatDims where
  rows : Nat
  cols : Nat
  deriving DecidableEq, Repr

/-- Modelled from the spec: the OpenCV function `cv::resize`, not part of the sources;
the destination of `resize(src, dst, dsize, 0, 0, interp)` has `dsize.height` rows and
`dsize.width` columns. -/
def resize (dsize : Size) : MatDims := ⟨dsize.height, dsize.width⟩

/-- Dimensions of `image2` after line 220,
`resize(image, image2, Size(inHeight, inWidth), 0, 0, INTER_NEAREST)`. -/
def image2Dims (inHeight inWidth : Nat) : MatDims := resize (Size.mk inHeight inWidth)

/-- Dimensions given to `image2` by its constructor at line 219,
`cv::Mat(inHeight, inWidth, CV_8SC3)` (rows, then columns). -/
def image2Declared (inHeight inWidth : Nat) : MatDims := ⟨inHeight, inWidth⟩

/-- Pixel positions `(h, w)` read by the loops of lines 221-222. -/
def readPositions (inHeight inWidth : Nat) : List (Nat × Nat) :=
  (List.range inHeight).flatMap fun h => (List.range inWidth).map fun w => (h, w)

/-- Whether `(h, w)` is a valid position of a matrix with the given dimensions. -/
def MatDims.contains (m : MatDims) (p : Nat × Nat) : Bool :=
  decide (p.1 < m.rows) && decide (p.2 < m.cols)

/-! ## Image-name selection (lines 44-74) -/

/-- The `d_type` of a directory entry, as far as `ListImages` distinguishes it. -/
inductive DType where
  | DT_REG
  | DT_UNKNOWN
  | DT_DIR
  | DT_OTHER
  deriving DecidableEq, Repr

/-- A directory entry returned by `readdir`. -/
structure DirEnt where
  d_type : DType
  d_name : String
  deriving DecidableEq, Repr

/-- The constant `std::string::npos`. -/
def npos : Nat := 2 ^ 64 - 1

/-- Index of the last occurrence of `c`, when there is one. -/
def lastIndexOf (c : Char) : List Char → Option Nat
  | [] => none
  | x :: xs =>
    match lastIndexOf c xs with
    | some j => some (j + 1)
    | none => if x = c then some 0 else none

/-- The call `name.find_last_of(".")`: index of the last occurrence, else `npos`. -/
def find_last_of (name : List Char) (c : Char) : Nat :=
  (lastIndexOf c name).getD npos

/-- The call `name.substr(pos)` for `pos ≤ name.size()`. -/
def substr (name : List Char) (pos : Nat) : List Char := name.drop pos

/-- The local `ext` of line 65: `name.substr(name.find_last_of(".") + 1)`, the
addition being a `size_t` addition. -/
def extOf (name : String) : List Char :=
  substr name.data ((find_last_of name.data '.' + 1) % 2 ^ 64)

/-- The spellings accepted by the test of lines 66-67. -/
def acceptedExts : List (List Char) :=
  ["JPEG".data, "jpeg".data, "JPG".data, "jpg".data, "PNG".data, "png".data]

/-- The test of lines 66-67 on the extension of `name`. -/
def isImageName (name : String) : Bool :=
  let ext := extOf name
  ext == "JPEG".data || ext == "jpeg".data || ext == "JPG".data ||
    ext == "jpg".data || ext == "PNG".data || ext == "png".data

/-- The loop of lines 62-71 over the entries of the directory. -/
def selectImages : List DirEnt → List String
  | [] => []
  | entry :: rest =>
    if entry.d_type = DType.DT_REG ∨ entry.d_type = DType.DT_UNKNOWN then
      if isImageName entry.d_name then entry.d_name :: selectImages rest
      else selectImages rest
    else selectImages rest

/-- The function `ListImages`: `exit(1)` (the error value) when the path is not a
directory or cannot be opened, else the selected names. -/
def ListImages (pathIsDir dirOpens : Bool) (entries : List DirEnt) : Except Int (List String) :=
  if !pathIsDir then Except.error 1
  else if !dirOpens then Except.error 1
  else Except.ok (selectImages entries)

/-- The selection rule in the words of the specification: the name has an
extension, and the extension is `jpg`, `jpeg` or `png` compared case-insensitively. -/
def specSelects (name : String) : Bool :=
  match lastIndexOf '.' name.data with
  | none => false
  | some j =>
    let ext := (name.data.drop (j + 1)).map Char.toLower
    ext == "jpg".data || ext == "jpeg".data || ext == "png".data

/-- The function `LoadWords`: `exit(1)` when the file cannot be opened, else its lines. -/
def LoadWords (fileOpens : Bool) (lines : List String) : Except Int (List String) :=
  if !fileOpens then Except.error 1 else Except.ok lines

/-! ## Softmax (lines 108-119) -/

/-- A `float` or `double` value: a finite number, an infinity or a NaN. Zeros carry no
sign: every zero of `CPUCalcSoftmax` is a positive zero. -/
inductive Fp (K : Type) where
  | fin (x : K)
  | pinf
  | ninf
  | nan

/-- The result of an operation with exact value `x` in the format with `p` significand
bits and exponents `emin..emax`: `x` rounded, an infinity when the rounded value is
beyond the largest finite value. -/
def Fp.round {K : Type} [LinearOrderedField K] [FloorRing K] (p : Nat) (emin emax : Int)
    (x : K) : Fp K :=
  if (2 : K) ^ (emax + 1) ≤ roundTo p emin x then Fp.pinf
  else if roundTo p emin x ≤ -(2 : K) ^ (emax + 1) then Fp.ninf
  else Fp.fin (roundTo p emin x)

/-- Addition of two `double` values. -/
def Fp.add64 {K : Type} [LinearOrderedField K] [FloorRing K] : Fp K → Fp K → Fp K
  | Fp.nan, _ => Fp.nan
  | _, Fp.nan => Fp.nan
  | Fp.pinf, Fp.ninf => Fp.nan
  | Fp.ninf, Fp.pinf => Fp.nan
  | Fp.pinf, _ => Fp.pinf
  | _, Fp.pinf => Fp.pinf
  | Fp.ninf, _ => Fp.ninf
  | _, Fp.ninf => Fp.ninf
  | Fp.fin x, Fp.fin y => Fp.round 53 (-1022) 1023 (x + y)

/-- Division of two `double` values, the divisor not negative. -/
def Fp.div64 {K : Type} [LinearOrderedField K] [FloorRing K] : Fp K → Fp K → Fp K
  | Fp.nan, _ => Fp.nan
  | _, Fp.nan => Fp.nan
  | Fp.pinf, Fp.fin _ => Fp.pinf
  | Fp.ninf, Fp.fin _ => Fp.ninf
  | Fp.fin _, Fp.pinf => Fp.fin 0
  | Fp.fin _, Fp.ninf => Fp.fin 0
  | Fp.fin x, Fp.fin y =>
    if y = 0 then (if x = 0 then Fp.nan else if 0 < x then Fp.pinf else Fp.ninf)
    else Fp.round 53 (-1022) 1023 (x / y)
  | _, _ => Fp.nan

/-- Conversion of a `double` to `float`. -/
def Fp.toFloat {K : Type} [LinearOrderedField K] [FloorRing K] : Fp K → Fp K
  | Fp.fin x => Fp.round 24 (-126) 127 x
  | a => a

/-- Modelled from the spec: `std::exp` on `float`, a library function outside the
sources, for the exponential function `e`: the value `e x` rounded to binary32, with
`exp(+inf) = +inf` and `exp(-inf) = 0`. -/
def expf {K : Type} [LinearOrderedField K] [FloorRing K] (e : K → K) : Fp K → Fp K
  | Fp.fin x => Fp.round 24 (-126) 127 (e x)
  | Fp.pinf => Fp.pinf
  | Fp.ninf => Fp.fin 0
  | Fp.nan => Fp.nan

/-- The argument `(float)data[i] * scale` of line 113, a `float` product. -/
def expArg {K : Type} [LinearOrderedField K] [FloorRing K] (scale : Binary32) (d : Int) :
    Fp K :=
  Fp.round 24 (-126) 127 ((d : K) * scale.val)

/-- The first loop of `CPUCalcSoftmax`: `result[i] = exp((float)data[i] * scale)` and
`sum += result[i]`, from the state `(result written so far, sum)`; `sum` is a
`double`. -/
def softmaxAccum {K : Type} [LinearOrderedField K] [FloorRing K] (ex : Fp K → Fp K)
    (scale : Binary32) : List Int → List (Fp K) × Fp K → List (Fp K) × Fp K
  | [], acc => acc
  | d :: ds, acc =>
    let r := ex (expArg scale d)
    softmaxAccum ex scale ds (acc.1 ++ [r], Fp.add64 acc.2 r)

/-- The function `CPUCalcSoftmax` with the library exponential `ex`; `data` holds the
`size` input codes and the value is the final content of `result`. The second loop
divides in `double` and stores a `float`. -/
def CPUCalcSoftmax {K : Type} [LinearOrderedField K] [FloorRing K] (ex : Fp K → Fp K)
    (data : List Int) (scale : Binary32) : List (Fp K) :=
  let acc := softmaxAccum ex scale data ([], Fp.fin 0)
  acc.1.map fun r => Fp.toFloat (Fp.div64 r acc.2)

/-- The `double` sum of the values `e` accumulated from `s`, when no addition
overflows. -/
def sumD {K : Type} [LinearOrderedField K] [FloorRing K] : K → List K → K
  | s, [] => s
  | s, r :: rs => sumD (f64 (s + r)) rs

/-! ## Top-K (lines 131-145) -/

/-- The comparison `operator<` of `std::pair<float, int>`. -/
def pairLt {α : Type} [LinearOrder α] (a b : α × Nat) : Bool :=
  decide (a.1 < b.1) || (!decide (b.1 < a.1) && decide (a.2 < b.2))

/-- The call `q.top()` of a `std::priority_queue` holding the elements `q`: a greatest
element for `operator<`; undefined on the empty queue. -/
def pqTop {α : Type} [LinearOrder α] : List (α × Nat) → Option (α × Nat)
  | [] => none
  | x :: xs =>
    match pqTop xs with
    | none => some x
    | some m => if pairLt m x then some x else some m

/-- The first loop of `TopK`: `q.push(pair<float, int>(d[i], i))` for `i` from `i0`,
`cnt` times. -/
def pushAll {α : Type} (d : List α) : Nat → Nat → Option (List (α × Nat))
  | 0, _ => some []
  | cnt + 1, i =>
    match d[i]?, pushAll d cnt (i + 1) with
    | some x, some q => some ((x, i) :: q)
    | _, _ => none

/-- The second loop of `TopK` from rank `i`, `cnt` iterations on the queue `q`: each
iteration takes `ki = q.top()`, prints `(i, d[ki.second], vkinds[ki.second])` and pops. -/
def reportLoop {α : Type} [LinearOrder α] (d : List α) (vkinds : List String) :
    Nat → Nat → List (α × Nat) → Option (List (Nat × α × String))
  | 0, _, _ => some []
  | cnt + 1, i, q =>
    match pqTop q with
    | none => none
    | some ki =>
      match d[ki.2]?, vkinds[ki.2]?, reportLoop d vkinds cnt (i + 1) (q.erase ki) with
      | some p, some name, some rest => some ((i, p, name) :: rest)
      | _, _, _ => none

/-- The function `TopK`: the printed lines `(rank, probability, name)` in order. The
`assert(d && size > 0 && k > 0)` of line 132 aborts when `size` or `k` is zero. -/
def TopK {α : Type} [LinearOrder α] (d : List α) (size k : Nat) (vkinds : List String) :
    Option (List (Nat × α × String)) :=
  if 0 < size ∧ 0 < k then
    match pushAll d size 0 with
    | none => none
    | some q => reportLoop d vkinds k 0 q
  else none

/-- The elements returned by `cnt` successive `q.top()` / `q.pop()` rounds, in order
(fewer when the queue runs empty). -/
def drain {α : Type} [LinearOrder α] : Nat → List (α × Nat) → List (α × Nat)
  | 0, _ => []
  | cnt + 1, q =>
    match pqTop q with
    | none => []
    | some m => m :: drain cnt (q.erase m)

/-- The lines printed for the ranked pairs `l`, ranks counted from `i`. -/
def labelled {α : Type} (vkinds : List String) : Nat → List (α × Nat) → List (Nat × α × String)
  | _, [] => []
  | i, x :: xs => (i, x.1, vkinds.getD x.2 "") :: labelled vkinds (i + 1) xs

/-! ## Batch loop of `run_CNN` (lines 210-265) -/

/-- One iteration of the batch loop: its start index `n`, its `runSize`, and the
pairs `(slot i, image index n + i)` post-processed by the loop of lines 253-261. -/
structure Batch where
  n : Nat
  runSize : Nat
  reported : List (Nat × Nat)
  deriving DecidableEq, Repr

/-- Lines 211-212: `(images.size() < (n + batchSize)) ? (images.size() - n) : batchSize`
stored in an `unsigned int`; `n + batchSize` is an `unsigned int` sum and
`images.size() - n` a `size_t` difference. -/
def runSizeAt (imagesSize batchSize n : Nat) : Nat :=
  (if imagesSize < (n + batchSize) % 2 ^ 32 then (imagesSize + 2 ^ 64 - n) % 2 ^ 64
   else batchSize) % 2 ^ 32

/-- The batch executed when the loop is entered with start index `n`. -/
def batchAt (imagesSize batchSize n : Nat) : Batch :=
  let runSize := runSizeAt imagesSize batchSize n
  { n := n
    runSize := runSize
    reported := (List.range runSize).map fun i => (i, (n + i) % 2 ^ 32) }

/-- The loop `for (unsigned int n = 0; n < images.size(); n += batchSize)` started at
`n` and run for at most `fuel` tests of its condition: the batches executed, and
whether the loop has exited. -/
def batchLoop (imagesSize batchSize : Nat) : Nat → Nat → List Batch × Bool
  | 0, _ => ([], false)
  | fuel + 1, n =>
    if n < imagesSize then
      let r := batchLoop imagesSize batchSize fuel ((n + batchSize) % 2 ^ 32)
      (batchAt imagesSize batchSize n :: r.1, r.2)
    else ([], true)

/-! ## Exit status of `main` (lines 154-171 and 278-313) -/

/-- How the process ends. -/
inductive ExitStatus where
  | exited (code : Int)
  | aborted
  deriving DecidableEq, Repr

/-- What the program observes of its environment. -/
structure Env where
  argc : Nat
  dpuSubgraphs : Nat
  pathIsDir : Bool
  dirOpens : Bool
  entries : List DirEnt
  wordsOpen : Bool
  words : List String

/-- How `run_CNN` returns to `main`. -/
inductive RunResult where
  | noImages
  | noWords
  | completed
  deriving DecidableEq, Repr

/-- The function `run_CNN` as far as the exit status depends on it: the two early
returns of lines 160-171, and `exit(1)` inside `ListImages` and `LoadWords`. -/
def run_CNN (env : Env) : Except Int RunResult :=
  match ListImages env.pathIsDir env.dirOpens env.entries with
  | Except.error code => Except.error code
  | Except.ok images =>
    if images.length = 0 then Except.ok RunResult.noImages
    else
      match LoadWords env.wordsOpen env.words with
      | Except.error code => Except.error code
      | Except.ok kinds =>
        if kinds.length = 0 then Except.ok RunResult.noWords
        else Except.ok RunResult.completed

/-- The function `main`: `return -1` on a wrong argument count, abort when `CHECK_EQ`
fails, the status of an `exit` inside `run_CNN`, else `return 0`. -/
def main (env : Env) : ExitStatus :=
  if env.argc ≠ 4 then ExitStatus.exited (-1)
  else if env.dpuSubgraphs ≠ 1 then ExitStatus.aborted
  else
    match run_CNN env with
    | Except.error code => ExitStatus.exited code
    | Except.ok _ => ExitStatus.exited 0

/-! ## Theorems: rounding to a binary floating-point format -/

theorem roundHalfEven_cases {K : Type} [LinearOrderedField K] [FloorRing K]
    (q : K) :
    (roundHalfEven q = ⌊q⌋ ∧ 2 * Int.fract q ≤ 1) ∨
      (roundHalfEven q = ⌊q⌋ + 1 ∧ 1 ≤ 2 * Int.fract q) := by
  unfold roundHalfEven
  by_cases h1 : 2 * Int.fract q < 1
  · rw [if_pos h1]; exact Or.inl ⟨rfl, le_of_lt h1⟩
  · rw [if_neg h1]
    by_cases h2 : 1 < 2 * Int.fract q
    · rw [if_pos h2]; exact Or.inr ⟨rfl, le_of_lt h2⟩
    · rw [if_neg h2]
      have e : 2 * Int.fract q = 1 := le_antisymm (not_lt.mp h2) (not_lt.mp h1)
      by_cases h3 : ⌊q⌋ % 2 = 0
      · rw [if_pos h3]; exact Or.inl ⟨rfl, le_of_eq e⟩
      · rw [if_neg h3]; exact Or.inr ⟨rfl, le_of_eq e.symm⟩

theorem roundHalfEven_intCast {K : Type} [LinearOrderedField K] [FloorRing K]
    (n : Int) : roundHalfEven (n : K) = n := by
  unfold roundHalfEven
  simp

theorem roundHalfEven_err {K : Type} [LinearOrderedField K] [FloorRing K]
    (q : K) : |(roundHalfEven q : K) - q| ≤ 1 / 2 := by
  have hf : (⌊q⌋ : K) + Int.fract q = q := Int.floor_add_fract q
  have h0 : 0 ≤ Int.fract q := Int.fract_nonneg q
  have h1 : Int.fract q < 1 := Int.fract_lt_one q
  rw [abs_le]
  rcases roundHalfEven_cases q with ⟨e, h⟩ | ⟨e, h⟩
  · rw [e]; constructor <;> linarith
  · rw [e]; push_cast; constructor <;> linarith

theorem roundHalfEven_mono {K : Type} [LinearOrderedField K] [FloorRing K]
    {q r : K} (h : q ≤ r) : roundHalfEven q ≤ roundHalfEven r := by
  have hfl : ⌊q⌋ ≤ ⌊r⌋ := Int.floor_mono h
  have hq : (⌊q⌋ : K) + Int.fract q = q := Int.floor_add_fract q
  have hr : (⌊r⌋ : K) + Int.fract r = r := Int.floor_add_fract r
  rcases lt_or_eq_of_le hfl with hlt | heq
  · have a : roundHalfEven q ≤ ⌊q⌋ + 1 := by
      rcases roundHalfEven_cases q with ⟨e, _⟩ | ⟨e, _⟩ <;> omega
    have b : ⌊r⌋ ≤ roundHalfEven r := by
      rcases roundHalfEven_cases r with ⟨e, _⟩ | ⟨e, _⟩ <;> omega
    omega
  · have hfr : Int.fract q ≤ Int.fract r := by
      have : (⌊q⌋ : K) = (⌊r⌋ : K) := by rw [heq]
      linarith
    unfold roundHalfEven
    rw [heq]
    by_cases h1 : 2 * Int.fract r < 1
    · have h1' : 2 * Int.fract q < 1 := by linarith
      rw [if_pos h1, if_pos h1']
    · rw [if_neg h1]
      by_cases h2 : 1 < 2 * Int.fract r
      · rw [if_pos h2]
        split_ifs <;> omega
      · rw [if_neg h2]
        have e : 2 * Int.fract r = 1 := le_antisymm (not_lt.mp h2) (not_lt.mp h1)
        by_cases h3 : 2 * Int.fract q < 1
        · rw [if_pos h3]; split_ifs <;> omega
        · have e' : 2 * Int.fract q = 1 := le_antisymm (by linarith) (not_lt.mp h3)
          rw [if_neg h3, if_neg (by rw [e']; exact lt_irrefl _)]

theorem roundHalfEven_neg {K : Type} [LinearOrderedField K] [FloorRing K]
    (q : K) : roundHalfEven (-q) = -roundHalfEven q := by
  by_cases hz : Int.fract q = 0
  · have hq : q = (⌊q⌋ : K) := by
      have := Int.floor_add_fract q
      rw [hz, add_zero] at this
      exact this.symm
    rw [hq, ← Int.cast_neg, roundHalfEven_intCast, roundHalfEven_intCast]
  · have hfl : ⌊-q⌋ = -⌊q⌋ - 1 := by
      have hq : (⌊q⌋ : K) + Int.fract q = q := Int.floor_add_fract q
      have h0 : 0 < Int.fract q := lt_of_le_of_ne (Int.fract_nonneg q) (Ne.symm hz)
      have h1 : Int.fract q < 1 := Int.fract_lt_one q
      rw [Int.floor_eq_iff]
      push_cast
      constructor <;> linarith
    have hfr : Int.fract (-q) = 1 - Int.fract q := by
      have hq : (⌊q⌋ : K) + Int.fract q = q := Int.floor_add_fract q
      have hn : (⌊-q⌋ : K) + Int.fract (-q) = -q := Int.floor_add_fract (-q)
      rw [hfl] at hn
      push_cast at hn
      linarith
    unfold roundHalfEven
    rw [hfl, hfr]
    by_cases h1 : 2 * Int.fract q < 1
    · rw [if_pos h1, if_neg (by linarith), if_pos (by linarith)]
      omega
    · rw [if_neg h1]
      by_cases h2 : 1 < 2 * Int.fract q
      · rw [if_pos h2, if_pos (by linarith)]
        omega
      · rw [if_neg h2, if_neg (by linarith), if_neg (by linarith)]
        split_ifs <;> omega


theorem two_zpow_pos {K : Type} [LinearOrderedField K]
    (n : Int) : (0 : K) < (2 : K) ^ n := zpow_pos (by norm_num) n

theorem two_zpow_le {K : Type} [LinearOrderedField K]
    {m n : Int} (h : m ≤ n) : (2 : K) ^ m ≤ (2 : K) ^ n :=
  zpow_le_zpow_right₀ (by norm_num) h

theorem two_zpow_lt_iff {K : Type} [LinearOrderedField K]
    {m n : Int} : (2 : K) ^ m < (2 : K) ^ n ↔ m < n :=
  zpow_lt_zpow_iff_right₀ (by norm_num)

theorem two_zpow_add {K : Type} [LinearOrderedField K]
    (m n : Int) : (2 : K) ^ (m + n) = (2 : K) ^ m * (2 : K) ^ n :=
  zpow_add₀ (by norm_num) m n

theorem two_zpow_natCast {K : Type} [LinearOrderedField K]
    (n : Nat) : (2 : K) ^ (n : Int) = (((2 : Int) ^ n : Int) : K) := by
  rw [zpow_natCast]; push_cast; rfl

theorem log2_le {K : Type} [LinearOrderedField K] [FloorRing K]
    {r : K} (hr : 0 < r) : (2 : K) ^ (Int.log 2 r) ≤ r := by
  have := Int.zpow_log_le_self (b := 2) (by norm_num) hr
  simpa using this

theorem lt_log2 {K : Type} [LinearOrderedField K] [FloorRing K]
    (r : K) : r < (2 : K) ^ (Int.log 2 r + 1) := by
  have := Int.lt_zpow_succ_log_self (b := 2) (by norm_num) r
  simpa using this

theorem ulp_pos {K : Type} [LinearOrderedField K] [FloorRing K]
    (p : Nat) (emin : Int) (x : K) : 0 < ulp p emin x := two_zpow_pos _

theorem binade_neg {K : Type} [LinearOrderedField K] [FloorRing K]
    (emin : Int) (x : K) : binade emin (-x) = binade emin x := by
  unfold binade; rw [abs_neg]

theorem ulp_neg {K : Type} [LinearOrderedField K] [FloorRing K]
    (p : Nat) (emin : Int) (x : K) : ulp p emin (-x) = ulp p emin x := by
  unfold ulp; rw [binade_neg]

theorem roundTo_neg {K : Type} [LinearOrderedField K] [FloorRing K]
    (p : Nat) (emin : Int) (x : K) :
    roundTo p emin (-x) = -roundTo p emin x := by
  unfold roundTo
  rw [ulp_neg, neg_div, roundHalfEven_neg]
  push_cast
  ring

theorem roundTo_zero {K : Type} [LinearOrderedField K] [FloorRing K]
    (p : Nat) (emin : Int) : roundTo p emin (0 : K) = 0 := by
  unfold roundTo
  rw [zero_div]
  have : roundHalfEven (0 : K) = 0 := by
    have := roundHalfEven_intCast (K := K) 0
    simpa using this
  rw [this]; simp

theorem roundTo_err {K : Type} [LinearOrderedField K] [FloorRing K]
    (p : Nat) (emin : Int) (x : K) :
    |roundTo p emin x - x| ≤ ulp p emin x / 2 := by
  have hu := ulp_pos p emin x
  have h := roundHalfEven_err (x / ulp p emin x)
  unfold roundTo
  have e : (roundHalfEven (x / ulp p emin x) : K) * ulp p emin x - x =
      ((roundHalfEven (x / ulp p emin x) : K) - x / ulp p emin x) * ulp p emin x := by
    field_simp
  rw [e, abs_mul, abs_of_pos hu]
  calc |(roundHalfEven (x / ulp p emin x) : K) - x / ulp p emin x| * ulp p emin x
      ≤ (1 / 2) * ulp p emin x := mul_le_mul_of_nonneg_right h (le_of_lt hu)
    _ = ulp p emin x / 2 := by ring

theorem roundTo_nonneg {K : Type} [LinearOrderedField K] [FloorRing K]
    (p : Nat) (emin : Int) {x : K} (hx : 0 ≤ x) :
    0 ≤ roundTo p emin x := by
  unfold roundTo
  have hu := ulp_pos p emin x
  have h0 : (0 : K) ≤ x / ulp p emin x := div_nonneg hx (le_of_lt hu)
  have h1 : roundHalfEven ((0 : Int) : K) ≤ roundHalfEven (x / ulp p emin x) :=
    roundHalfEven_mono (by simpa using h0)
  rw [roundHalfEven_intCast] at h1
  have h2 : (0 : K) ≤ (roundHalfEven (x / ulp p emin x) : K) := by exact_mod_cast h1
  exact mul_nonneg h2 (le_of_lt hu)

theorem abs_lt_binade_succ {K : Type} [LinearOrderedField K] [FloorRing K]
    (emin : Int) (x : K) : |x| < (2 : K) ^ (binade emin x + 1) := by
  have h1 := lt_log2 |x|
  have h2 : (2 : K) ^ (Int.log 2 |x| + 1) ≤ (2 : K) ^ (binade emin x + 1) := by
    apply two_zpow_le
    unfold binade
    have := le_max_left (Int.log 2 |x|) emin
    omega
  exact lt_of_lt_of_le h1 h2

theorem roundTo_le_binade_succ {K : Type} [LinearOrderedField K] [FloorRing K]
    (p : Nat) (emin : Int) {x : K} (hx : 0 ≤ x) :
    roundTo p emin x ≤ (2 : K) ^ (binade emin x + 1) := by
  have hu := ulp_pos p emin x
  have hlt := abs_lt_binade_succ emin x
  rw [abs_of_nonneg hx] at hlt
  have e : (2 : K) ^ (binade emin x + 1) = (((2 : Int) ^ p : Int) : K) * ulp p emin x := by
    unfold ulp
    rw [← two_zpow_natCast, ← two_zpow_add]
    congr 1
    ring
  rw [e]
  unfold roundTo
  apply mul_le_mul_of_nonneg_right _ (le_of_lt hu)
  have h1 : x / ulp p emin x ≤ (((2 : Int) ^ p : Int) : K) := by
    rw [div_le_iff₀ hu, ← e]
    exact le_of_lt hlt
  have h2 := roundHalfEven_mono h1
  rw [roundHalfEven_intCast] at h2
  exact_mod_cast h2

theorem le_roundTo_of_normal {K : Type} [LinearOrderedField K] [FloorRing K]
    (p : Nat) (emin : Int) (hp : 1 ≤ p) {x : K}
    (hx : (2 : K) ^ (binade emin x) ≤ x) :
    (2 : K) ^ (binade emin x) ≤ roundTo p emin x := by
  have hu := ulp_pos p emin x
  have e : (2 : K) ^ (binade emin x) = (((2 : Int) ^ (p - 1) : Int) : K) * ulp p emin x := by
    unfold ulp
    rw [← two_zpow_natCast, ← two_zpow_add]
    congr 1
    have : ((p - 1 : Nat) : Int) = (p : Int) - 1 := by omega
    rw [this]
    ring
  have h1 : (((2 : Int) ^ (p - 1) : Int) : K) ≤ x / ulp p emin x := by
    rw [le_div_iff₀ hu, ← e]
    exact hx
  have h2 := roundHalfEven_mono h1
  rw [roundHalfEven_intCast] at h2
  have h3 : (((2 : Int) ^ (p - 1) : Int) : K) ≤ (roundHalfEven (x / ulp p emin x) : K) := by
    exact_mod_cast h2
  calc (2 : K) ^ (binade emin x) = (((2 : Int) ^ (p - 1) : Int) : K) * ulp p emin x := e
    _ ≤ (roundHalfEven (x / ulp p emin x) : K) * ulp p emin x :=
        mul_le_mul_of_nonneg_right h3 (le_of_lt hu)

theorem binade_mono {K : Type} [LinearOrderedField K] [FloorRing K]
    (emin : Int) {x y : K} (hx : 0 < x) (h : x ≤ y) :
    binade emin x ≤ binade emin y := by
  unfold binade
  rw [abs_of_pos hx, abs_of_pos (lt_of_lt_of_le hx h)]
  exact max_le_max (Int.log_mono_right hx h) (le_refl _)

theorem roundTo_mono_pos {K : Type} [LinearOrderedField K] [FloorRing K]
    (p : Nat) (emin : Int) (hp : 1 ≤ p) {x y : K} (hx : 0 < x)
    (h : x ≤ y) : roundTo p emin x ≤ roundTo p emin y := by
  have hy : 0 < y := lt_of_lt_of_le hx h
  rcases lt_or_eq_of_le (binade_mono emin hx h) with hlt | heq
  · have h1 := roundTo_le_binade_succ p emin (le_of_lt hx)
    have hnorm : (2 : K) ^ (binade emin y) ≤ y := by
      have hb : binade emin y = Int.log 2 |y| := by
        unfold binade at hlt ⊢
        have := le_max_right (Int.log 2 |x|) emin
        rcases max_cases (Int.log 2 |y|) emin with ⟨e, _⟩ | ⟨e, _⟩
        · exact e
        · omega
      rw [hb, abs_of_pos hy]
      exact log2_le hy
    have h2 := le_roundTo_of_normal p emin hp hnorm
    have h3 : (2 : K) ^ (binade emin x + 1) ≤ (2 : K) ^ (binade emin y) :=
      two_zpow_le (by omega)
    exact h1.trans (h3.trans h2)
  · have hu : ulp p emin x = ulp p emin y := by unfold ulp; rw [heq]
    unfold roundTo
    rw [hu]
    have hpos := ulp_pos p emin y
    apply mul_le_mul_of_nonneg_right _ (le_of_lt hpos)
    have : x / ulp p emin y ≤ y / ulp p emin y := div_le_div_of_nonneg_right h (le_of_lt hpos)
    exact_mod_cast roundHalfEven_mono this

theorem roundTo_nonpos {K : Type} [LinearOrderedField K] [FloorRing K]
    (p : Nat) (emin : Int) {x : K} (hx : x ≤ 0) :
    roundTo p emin x ≤ 0 := by
  have h := roundTo_nonneg p emin (neg_nonneg.mpr hx)
  rw [roundTo_neg] at h
  linarith

theorem roundTo_mono {K : Type} [LinearOrderedField K] [FloorRing K]
    (p : Nat) (emin : Int) (hp : 1 ≤ p) {x y : K} (h : x ≤ y) :
    roundTo p emin x ≤ roundTo p emin y := by
  rcases lt_trichotomy 0 x with hx | hx | hx
  · exact roundTo_mono_pos p emin hp hx h
  · subst hx
    rw [roundTo_zero]
    exact roundTo_nonneg p emin h
  · rcases le_or_lt 0 y with hy | hy
    · exact (roundTo_nonpos p emin (le_of_lt hx)).trans (roundTo_nonneg p emin hy)
    · have h' := roundTo_mono_pos p emin hp (neg_pos.mpr hy) (neg_le_neg h)
      rw [roundTo_neg, roundTo_neg] at h'
      linarith

theorem binade_sub_le_of_repr {K : Type} [LinearOrderedField K] [FloorRing K]
    (p : Nat) (emin : Int) (m t : Int) (hm : |m| < 2 ^ p)
    (hm0 : m ≠ 0) (ht : emin - ((p : Int) - 1) ≤ t) :
    binade emin ((m : K) * (2 : K) ^ t) - ((p : Int) - 1) ≤ t := by
  have hx : 0 < |(m : K) * (2 : K) ^ t| := by
    rw [abs_pos]
    exact mul_ne_zero (by exact_mod_cast hm0) (ne_of_gt (two_zpow_pos t))
  have h1 := log2_le hx
  have h2 : |(m : K) * (2 : K) ^ t| < (2 : K) ^ ((p : Int) + t) := by
    rw [abs_mul, abs_of_pos (two_zpow_pos (K := K) t), two_zpow_add, zpow_natCast]
    apply mul_lt_mul_of_pos_right _ (two_zpow_pos t)
    have : ((|m| : Int) : K) < (((2 : Int) ^ p : Int) : K) := by exact_mod_cast hm
    simpa using this
  have h3 := two_zpow_lt_iff.mp (lt_of_le_of_lt h1 h2)
  unfold binade
  rcases max_cases (Int.log 2 |(m : K) * (2 : K) ^ t|) emin with ⟨e, _⟩ | ⟨e, _⟩ <;>
    rw [e] <;> omega

theorem roundTo_repr {K : Type} [LinearOrderedField K] [FloorRing K]
    (p : Nat) (emin : Int) (m t : Int) (hm : |m| < 2 ^ p)
    (ht : emin - ((p : Int) - 1) ≤ t) :
    roundTo p emin ((m : K) * (2 : K) ^ t) = (m : K) * (2 : K) ^ t := by
  by_cases hm0 : m = 0
  · subst hm0; simp [roundTo_zero]
  · have hle := binade_sub_le_of_repr (K := K) p emin m t hm hm0 ht
    obtain ⟨n, hn⟩ := Int.eq_ofNat_of_zero_le (sub_nonneg.mpr hle)
    have ht' : t = (n : Int) + (binade emin ((m : K) * (2 : K) ^ t) - ((p : Int) - 1)) := by
      omega
    have hu : ulp p emin ((m : K) * (2 : K) ^ t) =
        (2 : K) ^ (binade emin ((m : K) * (2 : K) ^ t) - ((p : Int) - 1)) := rfl
    have hpos := ulp_pos p emin ((m : K) * (2 : K) ^ t)
    have hx : (m : K) * (2 : K) ^ t =
        ((m * (2 : Int) ^ n : Int) : K) * ulp p emin ((m : K) * (2 : K) ^ t) := by
      rw [hu]
      conv_lhs => rw [ht']
      rw [two_zpow_add, two_zpow_natCast]
      push_cast
      ring
    have hq : (m : K) * (2 : K) ^ t / ulp p emin ((m : K) * (2 : K) ^ t) =
        ((m * (2 : Int) ^ n : Int) : K) := by
      rw [div_eq_iff (ne_of_gt hpos)]
      exact hx
    unfold roundTo
    rw [hq, roundHalfEven_intCast]
    exact hx.symm

theorem roundTo_two_zpow {K : Type} [LinearOrderedField K] [FloorRing K]
    (p : Nat) (emin : Int) (hp : 1 ≤ p) (k : Int) (hk : emin ≤ k) :
    roundTo p emin ((2 : K) ^ k) = (2 : K) ^ k := by
  have h := roundTo_repr (K := K) p emin 1 k (by
    rw [abs_one]
    exact one_lt_pow₀ (by norm_num) (by omega)) (by omega)
  simpa using h

theorem roundTo_err_rel {K : Type} [LinearOrderedField K] [FloorRing K]
    (p : Nat) (emin : Int) (x : K) :
    |roundTo p emin x - x| ≤ |x| * (2 : K) ^ (-(p : Int)) + (2 : K) ^ (emin - p) := by
  by_cases hx0 : x = 0
  · subst hx0
    rw [roundTo_zero]
    simp only [sub_zero, abs_zero, zero_mul, zero_add]
    exact le_of_lt (two_zpow_pos _)
  · have hx : 0 < |x| := abs_pos.mpr hx0
    have herr := roundTo_err p emin x
    have hhalf : ∀ n : Int, (2 : K) ^ (n - ((p : Int) - 1)) / 2 = (2 : K) ^ (n - p) := by
      intro n
      have : n - ((p : Int) - 1) = (n - p) + 1 := by ring
      rw [this, two_zpow_add]
      simp
    have hu : ulp p emin x / 2 = (2 : K) ^ (binade emin x - p) := hhalf _
    rw [hu] at herr
    have h1 : (0 : K) ≤ |x| * (2 : K) ^ (-(p : Int)) :=
      mul_nonneg (le_of_lt hx) (le_of_lt (two_zpow_pos _))
    have h2 : (0 : K) < (2 : K) ^ (emin - p) := two_zpow_pos _
    unfold binade at herr
    rcases max_cases (Int.log 2 |x|) emin with ⟨e, _⟩ | ⟨e, _⟩
    · rw [e] at herr
      have h3 : (2 : K) ^ (Int.log 2 |x| - p) ≤ |x| * (2 : K) ^ (-(p : Int)) := by
        have : Int.log 2 |x| - (p : Int) = Int.log 2 |x| + (-(p : Int)) := by ring
        rw [this, two_zpow_add]
        exact mul_le_mul_of_nonneg_right (log2_le hx) (le_of_lt (two_zpow_pos _))
      linarith
    · rw [e] at herr
      linarith

/-! ## Theorems: fixed-point preprocessing -/

theorem roundTo_err_of_abs_lt {K : Type} [LinearOrderedField K] [FloorRing K]
    (p : Nat) (emin k : Int) (hk : emin ≤ k) {x : K} (hx : |x| < (2 : K) ^ (k + 1)) :
    |roundTo p emin x - x| ≤ (2 : K) ^ (k - p) := by
  by_cases hx0 : x = 0
  · subst hx0
    rw [roundTo_zero]
    simp only [sub_zero, abs_zero]
    exact le_of_lt (two_zpow_pos _)
  · have hpos : 0 < |x| := abs_pos.mpr hx0
    have hlog : Int.log 2 |x| < k + 1 :=
      two_zpow_lt_iff.mp (lt_of_le_of_lt (log2_le hpos) hx)
    have hb : binade emin x ≤ k := by
      unfold binade
      exact max_le (by omega) hk
    have herr := roundTo_err p emin x
    have hu : ulp p emin x / 2 = (2 : K) ^ (binade emin x - p) := by
      unfold ulp
      have : binade emin x - ((p : Int) - 1) = (binade emin x - p) + 1 := by ring
      rw [this, two_zpow_add]
      simp
    rw [hu] at herr
    exact herr.trans (two_zpow_le (by omega))

theorem f32_mono {x y : ℚ} (h : x ≤ y) : f32 x ≤ f32 y :=
  roundTo_mono 24 (-126) (by decide) h

theorem f32_neg (x : ℚ) : f32 (-x) = -f32 x := roundTo_neg 24 (-126) x

theorem f32_zero : f32 (0 : ℚ) = 0 := roundTo_zero 24 (-126)

theorem f32_one : f32 (1 : ℚ) = 1 := by
  have h := roundTo_two_zpow (K := ℚ) 24 (-126) (by decide) 0 (by decide)
  simpa [f32] using h

theorem f32_half : f32 ((1 : ℚ) / 2) = 1 / 2 := by
  have h := roundTo_two_zpow (K := ℚ) 24 (-126) (by decide) (-1) (by decide)
  have e : (2 : ℚ) ^ (-1 : Int) = 1 / 2 := by norm_num
  rw [e] at h
  exact h

theorem f32_val (s : Binary32) : f32 (s.val : ℚ) = s.val := by
  unfold f32 Binary32.val
  exact roundTo_repr 24 (-126) s.m s.e s.hm (by have := s.he.1; omega)

theorem f32_err_unit {x : ℚ} (hx : |x| ≤ 1) : |f32 x - x| ≤ 1 / 2 ^ 24 := by
  have h := roundTo_err_of_abs_lt (K := ℚ) 24 (-126) 0 (by decide) (x := x)
    (lt_of_le_of_lt hx (by norm_num))
  have e : (2 : ℚ) ^ ((0 : Int) - ((24 : Nat) : Int)) = 1 / 2 ^ 24 := by norm_num
  rw [e] at h
  exact h

theorem f32_err_half {x : ℚ} (hx : |x| ≤ 1 / 2) : |f32 x - x| ≤ 1 / 2 ^ 25 := by
  have h := roundTo_err_of_abs_lt (K := ℚ) 24 (-126) (-1) (by decide) (x := x)
    (lt_of_le_of_lt hx (by norm_num))
  have e : (2 : ℚ) ^ ((-1 : Int) - ((24 : Nat) : Int)) = 1 / 2 ^ 25 := by norm_num
  rw [e] at h
  exact h

theorem f32_err_rel (x : ℚ) : |f32 x - x| ≤ |x| / 2 ^ 24 + 1 / 2 ^ 150 := by
  have h := roundTo_err_rel (K := ℚ) 24 (-126) x
  have e1 : (2 : ℚ) ^ (-((24 : Nat) : Int)) = 1 / 2 ^ 24 := by norm_num
  have e2 : (2 : ℚ) ^ ((-126 : Int) - ((24 : Nat) : Int)) = 1 / 2 ^ 150 := by norm_num
  rw [e1, e2] at h
  calc |f32 x - x| ≤ |x| * (1 / 2 ^ 24) + 1 / 2 ^ 150 := h
    _ = |x| / 2 ^ 24 + 1 / 2 ^ 150 := by ring

/-- The value `(v/255.0f-0.5f)*2` computed in binary32 lies in `[-1, 1]`, is within
`2^-22` of the exact value and is monotone in the byte `v`. -/
theorem unit_value_spec {v : Nat} (hv : v ≤ 255) :
    -1 ≤ f32 (f32 (f32 ((v : ℚ) / 255) - 1 / 2) * 2) ∧
      f32 (f32 (f32 ((v : ℚ) / 255) - 1 / 2) * 2) ≤ 1 ∧
      |f32 (f32 (f32 ((v : ℚ) / 255) - 1 / 2) * 2) - ((v : ℚ) / 255 - 1 / 2) * 2| ≤
        1 / 2 ^ 22 := by
  have hc : (v : ℚ) ≤ 255 := by exact_mod_cast hv
  have h0 : (0 : ℚ) ≤ (v : ℚ) := by positivity
  have a0l : (0 : ℚ) ≤ (v : ℚ) / 255 := by positivity
  have a0u : (v : ℚ) / 255 ≤ 1 := by rw [div_le_iff₀ (by norm_num)]; linarith
  have al : 0 ≤ f32 ((v : ℚ) / 255) := by
    have := f32_mono a0l; rwa [f32_zero] at this
  have au : f32 ((v : ℚ) / 255) ≤ 1 := by
    have := f32_mono a0u; rwa [f32_one] at this
  have ae : |f32 ((v : ℚ) / 255) - (v : ℚ) / 255| ≤ 1 / 2 ^ 24 :=
    f32_err_unit (by rw [abs_le]; constructor <;> linarith)
  have bl : -(1 / 2) ≤ f32 (f32 ((v : ℚ) / 255) - 1 / 2) := by
    have := f32_mono (show -((1 : ℚ) / 2) ≤ f32 ((v : ℚ) / 255) - 1 / 2 by linarith)
    rwa [f32_neg, f32_half] at this
  have bu : f32 (f32 ((v : ℚ) / 255) - 1 / 2) ≤ 1 / 2 := by
    have := f32_mono (show f32 ((v : ℚ) / 255) - 1 / 2 ≤ (1 : ℚ) / 2 by linarith)
    rwa [f32_half] at this
  have be : |f32 (f32 ((v : ℚ) / 255) - 1 / 2) - (f32 ((v : ℚ) / 255) - 1 / 2)| ≤
      1 / 2 ^ 25 :=
    f32_err_half (by rw [abs_le]; constructor <;> linarith)
  have cl : -1 ≤ f32 (f32 (f32 ((v : ℚ) / 255) - 1 / 2) * 2) := by
    have := f32_mono (show -(1 : ℚ) ≤ f32 (f32 ((v : ℚ) / 255) - 1 / 2) * 2 by linarith)
    rwa [f32_neg, f32_one] at this
  have cu : f32 (f32 (f32 ((v : ℚ) / 255) - 1 / 2) * 2) ≤ 1 := by
    have := f32_mono (show f32 (f32 ((v : ℚ) / 255) - 1 / 2) * 2 ≤ (1 : ℚ) by linarith)
    rwa [f32_one] at this
  have ce : |f32 (f32 (f32 ((v : ℚ) / 255) - 1 / 2) * 2) -
      f32 (f32 ((v : ℚ) / 255) - 1 / 2) * 2| ≤ 1 / 2 ^ 24 :=
    f32_err_unit (by rw [abs_le]; constructor <;> linarith)
  refine ⟨cl, cu, ?_⟩
  rw [abs_le] at ae be ce ⊢
  constructor <;> linarith [ae.1, ae.2, be.1, be.2, ce.1, ce.2]

theorem unit_value_mono {a b : Nat} (h : b ≤ a) :
    f32 (f32 (f32 ((b : ℚ) / 255) - 1 / 2) * 2) ≤ f32 (f32 (f32 ((a : ℚ) / 255) - 1 / 2) * 2) := by
  have hc : (b : ℚ) ≤ (a : ℚ) := by exact_mod_cast h
  have h1 : (b : ℚ) / 255 ≤ (a : ℚ) / 255 := div_le_div_of_nonneg_right hc (by norm_num)
  have h2 := f32_mono h1
  have h3 := f32_mono (show f32 ((b : ℚ) / 255) - 1 / 2 ≤ f32 ((a : ℚ) / 255) - 1 / 2 by linarith)
  exact f32_mono (by linarith)

theorem quantValue_mono {a b : Nat} {s : Binary32} (hs : 0 < (s.val : ℚ)) (h : b ≤ a) :
    quantValue b s ≤ quantValue a s := by
  unfold quantValue
  exact f32_mono (mul_le_mul_of_nonneg_right (unit_value_mono h) (le_of_lt hs))

theorem quantValue_abs_le {v : Nat} {s : Binary32} (hv : v ≤ 255) (hs : 0 < (s.val : ℚ)) :
    -(s.val : ℚ) ≤ quantValue v s ∧ quantValue v s ≤ s.val := by
  obtain ⟨cl, cu, _⟩ := unit_value_spec hv
  unfold quantValue
  constructor
  · have := f32_mono (show -(s.val : ℚ) ≤
        f32 (f32 (f32 ((v : ℚ) / 255) - 1 / 2) * 2) * s.val by nlinarith)
    rwa [f32_neg, f32_val] at this
  · have := f32_mono (show f32 (f32 (f32 ((v : ℚ) / 255) - 1 / 2) * 2) * s.val ≤
        (s.val : ℚ) by nlinarith)
    rwa [f32_val] at this

/-- The binary32 value of line 224 is within `s/2^21 + 2^-150` of the exact value of
`((v/255 - 0.5) * 2) * s`. -/
theorem quantValue_err {v : Nat} {s : Binary32} (hv : v ≤ 255) (hs : 0 < (s.val : ℚ)) :
    |quantValue v s - ((v : ℚ) / 255 - 1 / 2) * 2 * s.val| ≤
      (s.val : ℚ) / 2 ^ 21 + 1 / 2 ^ 150 := by
  obtain ⟨cl, cu, ce⟩ := unit_value_spec hv
  have hy := f32_err_rel (f32 (f32 (f32 ((v : ℚ) / 255) - 1 / 2) * 2) * s.val)
  have habs : |f32 (f32 (f32 ((v : ℚ) / 255) - 1 / 2) * 2) * (s.val : ℚ)| ≤ s.val := by
    rw [abs_le]; constructor <;> nlinarith
  have hdiv : |f32 (f32 (f32 ((v : ℚ) / 255) - 1 / 2) * 2) * (s.val : ℚ)| / 2 ^ 24 ≤
      (s.val : ℚ) / 2 ^ 24 := div_le_div_of_nonneg_right habs (by positivity)
  have hce : |(f32 (f32 (f32 ((v : ℚ) / 255) - 1 / 2) * 2) - ((v : ℚ) / 255 - 1 / 2) * 2) *
      (s.val : ℚ)| ≤ 1 / 2 ^ 22 * s.val := by
    rw [abs_mul, abs_of_pos hs]
    exact mul_le_mul_of_nonneg_right ce (le_of_lt hs)
  unfold quantValue
  rw [abs_le] at hy hce ⊢
  constructor <;> nlinarith [hy.1, hy.2, hce.1, hce.2, hdiv]

theorem truncToInt_of_nonneg {x : ℚ} (h : 0 ≤ x) : truncToInt x = ⌊x⌋ := by
  simp [truncToInt, h]

theorem truncToInt_of_nonpos {x : ℚ} (h : x ≤ 0) : truncToInt x = ⌈x⌉ := by
  rcases eq_or_lt_of_le h with h0 | h0
  · subst h0; simp [truncToInt]
  · simp [truncToInt, not_le.mpr h0]

theorem truncToInt_eq_ceil_of {x : ℚ} {z : Int} (h0 : x < 0) (h1 : (z : ℚ) - 1 < x)
    (h2 : x ≤ z) : truncToInt x = z := by
  unfold truncToInt
  rw [if_neg (not_le.mpr h0)]
  exact Int.ceil_eq_iff.mpr ⟨h1, h2⟩

theorem truncToInt_eq_floor_of {x : ℚ} {z : Int} (h0 : 0 ≤ x) (h1 : (z : ℚ) ≤ x)
    (h2 : x < z + 1) : truncToInt x = z := by
  unfold truncToInt
  rw [if_pos h0]
  exact Int.floor_eq_iff.mpr ⟨h1, h2⟩

theorem truncToInt_mono {x y : ℚ} (h : x ≤ y) : truncToInt x ≤ truncToInt y := by
  by_cases hx : 0 ≤ x
  · rw [truncToInt_of_nonneg hx, truncToInt_of_nonneg (hx.trans h)]
    exact Int.floor_mono h
  · have hx0 : x ≤ 0 := le_of_lt (not_le.mp hx)
    rw [truncToInt_of_nonpos hx0]
    by_cases hy : 0 ≤ y
    · rw [truncToInt_of_nonneg hy]
      have h1 : ⌈x⌉ ≤ 0 := Int.ceil_le.mpr (by simpa using hx0)
      have h2 : (0 : Int) ≤ ⌊y⌋ := Int.floor_nonneg.mpr hy
      exact h1.trans h2
    · rw [truncToInt_of_nonpos (le_of_lt (not_le.mp hy))]
      exact Int.ceil_mono h

theorem truncToInt_small {x : ℚ} (h1 : -128 < x) (h2 : x < 128) :
    -127 ≤ truncToInt x ∧ truncToInt x ≤ 127 := by
  by_cases hx : 0 ≤ x
  · rw [truncToInt_of_nonneg hx]
    have a := Int.floor_nonneg.mpr hx
    have b : ⌊x⌋ < 128 := Int.floor_lt.mpr (by push_cast; exact h2)
    omega
  · have hx0 : x ≤ 0 := le_of_lt (not_le.mp hx)
    rw [truncToInt_of_nonpos hx0]
    have a : ⌈x⌉ ≤ 0 := Int.ceil_le.mpr (by simpa using hx0)
    have b : -128 < ⌈x⌉ := Int.lt_ceil.mpr (by push_cast; exact h1)
    omega

theorem wrapInt8_range (z : Int) : -128 ≤ wrapInt8 z ∧ wrapInt8 z ≤ 127 := by
  unfold wrapInt8; omega

theorem wrapInt8_of_range {z : Int} (h1 : -128 ≤ z) (h2 : z ≤ 127) : wrapInt8 z = z := by
  unfold wrapInt8; omega

theorem castInt8_of_trunc {x : ℚ} {z : Int} (h : truncToInt x = z) (h1 : -2 ^ 31 ≤ z)
    (h2 : z < 2 ^ 31) : castInt8 x = some (wrapInt8 z) := by
  unfold castInt8
  rw [h, if_pos ⟨h1, h2⟩]

theorem castInt8_range {x : ℚ} {c : Int} (h : castInt8 x = some c) : -128 ≤ c ∧ c ≤ 127 := by
  unfold castInt8 at h
  split at h
  · simp only [Option.some.injEq] at h
    rw [← h]
    exact wrapInt8_range _
  · exact absurd h (by simp)

/-- Below scale 128 the truncated value fits `int8_t`: the cast is defined and does not
wrap. -/
theorem quantize_eq_trunc {v : Nat} {s : Binary32} (hv : v ≤ 255) (hs : 0 < (s.val : ℚ))
    (hs2 : (s.val : ℚ) < 128) :
    quantize v s = some (truncToInt (quantValue v s)) ∧
      -127 ≤ truncToInt (quantValue v s) ∧ truncToInt (quantValue v s) ≤ 127 := by
  obtain ⟨l, u⟩ := quantValue_abs_le hv hs
  obtain ⟨b1, b2⟩ := truncToInt_small (x := quantValue v s) (by linarith) (by linarith)
  refine ⟨?_, b1, b2⟩
  unfold quantize
  rw [castInt8_of_trunc rfl (by omega) (by omega), wrapInt8_of_range (by omega) b2]

theorem scale64_val : (Binary32.scale64.val : ℚ) = 64 := by
  norm_num [Binary32.val, Binary32.scale64]

theorem scale128_val : (Binary32.scale128.val : ℚ) = 128 := by
  norm_num [Binary32.val, Binary32.scale128]

theorem three_val : (Binary32.three.val : ℚ) = 3 := by
  norm_num [Binary32.val, Binary32.three]

theorem quantize_two_64 : quantize 2 Binary32.scale64 = some (-62) := by
  have hs : (0 : ℚ) < Binary32.scale64.val := by rw [scale64_val]; norm_num
  have he := quantValue_err (v := 2) (s := Binary32.scale64) (by decide) hs
  rw [scale64_val, abs_le] at he
  have h : truncToInt (quantValue 2 Binary32.scale64) = -62 := by
    apply truncToInt_eq_ceil_of
    · norm_num at he ⊢; linarith [he.2]
    · norm_num at he ⊢; linarith [he.1]
    · norm_num at he ⊢; linarith [he.2]
  rw [(quantize_eq_trunc (by decide) hs (by rw [scale64_val]; norm_num)).1, h]

theorem quantize_200_64 : quantize 200 Binary32.scale64 = some 36 := by
  have hs : (0 : ℚ) < Binary32.scale64.val := by rw [scale64_val]; norm_num
  have he := quantValue_err (v := 200) (s := Binary32.scale64) (by decide) hs
  rw [scale64_val, abs_le] at he
  have h : truncToInt (quantValue 200 Binary32.scale64) = 36 := by
    apply truncToInt_eq_floor_of
    · norm_num at he ⊢; linarith [he.1]
    · norm_num at he ⊢; linarith [he.1]
    · norm_num at he ⊢; linarith [he.2]
  rw [(quantize_eq_trunc (by decide) hs (by rw [scale64_val]; norm_num)).1, h]

theorem quantize_254_128 : quantize 254 Binary32.scale128 = some 126 := by
  have hs : (0 : ℚ) < Binary32.scale128.val := by rw [scale128_val]; norm_num
  have he := quantValue_err (v := 254) (s := Binary32.scale128) (by decide) hs
  rw [scale128_val, abs_le] at he
  have h : truncToInt (quantValue 254 Binary32.scale128) = 126 := by
    apply truncToInt_eq_floor_of
    · norm_num at he ⊢; linarith [he.1]
    · norm_num at he ⊢; linarith [he.1]
    · norm_num at he ⊢; linarith [he.2]
  unfold quantize
  rw [castInt8_of_trunc h (by decide) (by decide)]
  rfl

theorem quantValue_255_128 : quantValue 255 Binary32.scale128 = 128 := by
  unfold quantValue
  have e1 : ((255 : Nat) : ℚ) / 255 = 1 := by norm_num
  have e2 : (1 : ℚ) - 1 / 2 = 1 / 2 := by norm_num
  have e3 : (1 : ℚ) / 2 * 2 = 1 := by norm_num
  rw [e1, f32_one, e2, f32_half, e3, f32_one, one_mul, f32_val]
  exact scale128_val

theorem quantize_255_128 : quantize 255 Binary32.scale128 = some (-128) := by
  have h : truncToInt (quantValue 255 Binary32.scale128) = 128 := by
    rw [quantValue_255_128]
    apply truncToInt_eq_floor_of <;> norm_num
  unfold quantize
  rw [castInt8_of_trunc h (by decide) (by decide)]
  rfl

theorem roundHalfEven_eq_of_near {K : Type} [LinearOrderedField K] [FloorRing K]
    {q : K} {n : Int} (h : |q - (n : K)| < 1 / 2) : roundHalfEven q = n := by
  have h1 := roundHalfEven_err q
  rw [abs_le] at h1
  rw [abs_lt] at h
  have lo : ((n : K) - 1) < (roundHalfEven q : K) := by linarith [h1.1, h.1]
  have hi : (roundHalfEven q : K) < (n : K) + 1 := by linarith [h1.2, h.2]
  have lo' : n - 1 < roundHalfEven q := by exact_mod_cast lo
  have hi' : roundHalfEven q < n + 1 := by exact_mod_cast hi
  omega

theorem binade_eq_of_bounds {K : Type} [LinearOrderedField K] [FloorRing K]
    (emin k : Int) (hk : emin ≤ k) {x : K} (hlo : (2 : K) ^ k ≤ |x|)
    (hhi : |x| < (2 : K) ^ (k + 1)) : binade emin x = k := by
  have hpos : 0 < |x| := lt_of_lt_of_le (two_zpow_pos k) hlo
  have h1 : Int.log 2 |x| < k + 1 := two_zpow_lt_iff.mp (lt_of_le_of_lt (log2_le hpos) hhi)
  have h2 : k < Int.log 2 |x| + 1 := two_zpow_lt_iff.mp (lt_of_le_of_lt hlo (lt_log2 |x|))
  unfold binade
  rw [max_eq_left (by omega)]
  omega

theorem roundTo_eval {K : Type} [LinearOrderedField K] [FloorRing K]
    (p : Nat) (emin k : Int) (hk : emin ≤ k) {x : K} (n : Int)
    (hlo : (2 : K) ^ k ≤ |x|) (hhi : |x| < (2 : K) ^ (k + 1))
    (hn : |x / (2 : K) ^ (k - ((p : Int) - 1)) - (n : K)| < 1 / 2) :
    roundTo p emin x = (n : K) * (2 : K) ^ (k - ((p : Int) - 1)) := by
  unfold roundTo ulp
  rw [binade_eq_of_bounds emin k hk hlo hhi, roundHalfEven_eq_of_near hn]

theorem f32_third : f32 ((1 : ℚ) / 3) = 11184811 / 33554432 := by
  have h := roundTo_eval (K := ℚ) 24 (-126) (-2) (by decide) (x := 1 / 3) 11184811
    (by norm_num [abs_of_pos]) (by norm_num [abs_of_pos])
    (by rw [abs_lt]; constructor <;> norm_num)
  rw [f32, h]
  norm_num

theorem f32_dyadic (m t : Int) (hm : |m| < 2 ^ 24) (ht : -149 ≤ t) :
    f32 ((m : ℚ) * (2 : ℚ) ^ t) = (m : ℚ) * (2 : ℚ) ^ t :=
  roundTo_repr 24 (-126) m t hm (by omega)

/-- The binary32 computation differs from the exact one: for the byte 85 at scale 3 the
exact value is -1, the `float` value is `-16777215/16777216` and the stored code is 0. -/
theorem quantize_85_three :
    quantValue 85 Binary32.three = -16777215 / 16777216 ∧
      ((85 : ℚ) / 255 - 1 / 2) * 2 * 3 = -1 ∧ quantize 85 Binary32.three = some 0 := by
  have hq : quantValue 85 Binary32.three = -16777215 / 16777216 := by
    unfold quantValue
    have e1 : ((85 : Nat) : ℚ) / 255 = 1 / 3 := by norm_num
    rw [e1, f32_third, three_val]
    have e2 : (11184811 : ℚ) / 33554432 - 1 / 2 = ((-5592405 : Int) : ℚ) * (2 : ℚ) ^ (-25 : Int) := by
      norm_num
    rw [e2, f32_dyadic _ _ (by decide) (by decide)]
    have e3 : ((-5592405 : Int) : ℚ) * (2 : ℚ) ^ (-25 : Int) * 2 =
        ((-5592405 : Int) : ℚ) * (2 : ℚ) ^ (-24 : Int) := by norm_num
    rw [e3, f32_dyadic _ _ (by decide) (by decide)]
    have e4 : ((-5592405 : Int) : ℚ) * (2 : ℚ) ^ (-24 : Int) * 3 =
        ((-16777215 : Int) : ℚ) * (2 : ℚ) ^ (-24 : Int) := by norm_num
    rw [e4, f32_dyadic _ _ (by decide) (by decide)]
    norm_num
  refine ⟨hq, by norm_num, ?_⟩
  have h : truncToInt (quantValue 85 Binary32.three) = 0 := by
    rw [hq]
    apply truncToInt_eq_ceil_of <;> norm_num
  unfold quantize
  rw [castInt8_of_trunc h (by decide) (by decide)]
  rfl

/-- C1, as stated, fails: the stored code is not the value rounded to the nearest
integer and clamped. For the byte 2 at scale 64 the value is about -62.996; the code
stores -62 where rounding gives -63. For the byte 255 at scale 128 the value is 128;
the compiled cast stores -128 where clamping gives 127. -/
theorem quantize_ne_specRoundClamp :
    (quantize 2 Binary32.scale64 = some (-62) ∧
        specRoundClampInt8 (((2 : ℚ) / 255 - 1 / 2) * 2 * 64) = -63) ∧
      (quantize 255 Binary32.scale128 = some (-128) ∧
        specRoundClampInt8 (((255 : ℚ) / 255 - 1 / 2) * 2 * 128) = 127) ∧
      ¬ (∀ (v : Nat) (s : Binary32), v ≤ 255 → 0 < (s.val : ℚ) →
          quantize v s =
            some (specRoundClampInt8 (((v : ℚ) / 255 - 1 / 2) * 2 * s.val))) := by
  have r1 : specRoundClampInt8 (((2 : ℚ) / 255 - 1 / 2) * 2 * 64) = -63 := by
    have h : round (((2 : ℚ) / 255 - 1 / 2) * 2 * 64) = -63 := by
      rw [round_eq, Int.floor_eq_iff]
      constructor <;> norm_num
    unfold specRoundClampInt8
    rw [h]
    decide
  have r2 : specRoundClampInt8 (((255 : ℚ) / 255 - 1 / 2) * 2 * 128) = 127 := by
    have h : round (((255 : ℚ) / 255 - 1 / 2) * 2 * 128) = 128 := by
      rw [round_eq, Int.floor_eq_iff]
      constructor <;> norm_num
    unfold specRoundClampInt8
    rw [h]
    decide
  refine ⟨⟨quantize_two_64, r1⟩, ⟨quantize_255_128, r2⟩, ?_⟩
  intro hall
  have hs : (0 : ℚ) < Binary32.scale64.val := by rw [scale64_val]; norm_num
  have h := hall 2 Binary32.scale64 (by decide) hs
  rw [quantize_two_64, scale64_val] at h
  simp only [Nat.cast_ofNat, Option.some.injEq] at h
  rw [r1] at h
  exact absurd h (by decide)

/-- C1 (amended): for every pixel byte `v ≤ 255` and every positive `float` scale `s`,
the value the loop computes in binary32 is within `s/2^21 + 2^-150` of
`((v/255 - 0.5) * 2) * s`, and a stored code lies in `[-128, 127]`. When `s < 128` the
code is stored, it is that binary32 value truncated toward zero (its floor when the
value is non-negative, its ceiling when it is non-positive; not rounded to the nearest
integer), it lies in `[-127, 127]` so that nothing is clamped, and it is within
`1 + 2^-13` of `((v/255 - 0.5) * 2) * s`. -/
theorem quantize_trunc_range (v : Nat) (s : Binary32) (hv : v ≤ 255)
    (hs : 0 < (s.val : ℚ)) :
    |quantValue v s - ((v : ℚ) / 255 - 1 / 2) * 2 * s.val| ≤
        (s.val : ℚ) / 2 ^ 21 + 1 / 2 ^ 150 ∧
      (∀ c, quantize v s = some c → -128 ≤ c ∧ c ≤ 127) ∧
      ((s.val : ℚ) < 128 → ∃ c : Int, quantize v s = some c ∧ -127 ≤ c ∧ c ≤ 127 ∧
        (0 ≤ quantValue v s → c = ⌊quantValue v s⌋) ∧
        (quantValue v s ≤ 0 → c = ⌈quantValue v s⌉) ∧
        |(c : ℚ) - ((v : ℚ) / 255 - 1 / 2) * 2 * s.val| < 1 + 1 / 2 ^ 13) := by
  have herr := quantValue_err hv hs
  refine ⟨herr, fun c hc => castInt8_range hc, ?_⟩
  intro hs2
  obtain ⟨e, b1, b2⟩ := quantize_eq_trunc hv hs hs2
  refine ⟨truncToInt (quantValue v s), e, b1, b2, truncToInt_of_nonneg,
    truncToInt_of_nonpos, ?_⟩
  have ht : |(truncToInt (quantValue v s) : ℚ) - quantValue v s| < 1 := by
    rw [abs_lt]
    by_cases hx : 0 ≤ quantValue v s
    · rw [truncToInt_of_nonneg hx]
      have h1 := Int.floor_le (quantValue v s)
      have h2 := Int.lt_floor_add_one (quantValue v s)
      constructor <;> linarith
    · have hx0 : quantValue v s ≤ 0 := le_of_lt (not_le.mp hx)
      rw [truncToInt_of_nonpos hx0]
      have h1 := Int.le_ceil (quantValue v s)
      have h2 := Int.ceil_lt_add_one (quantValue v s)
      constructor <;> linarith
  rw [abs_lt] at ht ⊢
  rw [abs_le] at herr
  have hb : (s.val : ℚ) / 2 ^ 21 + 1 / 2 ^ 150 < 1 / 2 ^ 13 := by
    have : (s.val : ℚ) / 2 ^ 21 < 128 / 2 ^ 21 := div_lt_div_of_pos_right hs2 (by positivity)
    norm_num at this ⊢
    linarith
  constructor <;> linarith [ht.1, ht.2, herr.1, herr.2]

/-- Witness of `quantize_trunc_range`: the byte 200 at scale 64. -/
theorem quantize_trunc_range_witness :
    (200 ≤ 255 ∧ 0 < (Binary32.scale64.val : ℚ)) ∧
      (|quantValue 200 Binary32.scale64 -
          (((200 : Nat) : ℚ) / 255 - 1 / 2) * 2 * Binary32.scale64.val| ≤
        (Binary32.scale64.val : ℚ) / 2 ^ 21 + 1 / 2 ^ 150 ∧
      (∀ c, quantize 200 Binary32.scale64 = some c → -128 ≤ c ∧ c ≤ 127) ∧
      ((Binary32.scale64.val : ℚ) < 128 →
        ∃ c : Int, quantize 200 Binary32.scale64 = some c ∧ -127 ≤ c ∧ c ≤ 127 ∧
          (0 ≤ quantValue 200 Binary32.scale64 → c = ⌊quantValue 200 Binary32.scale64⌋) ∧
          (quantValue 200 Binary32.scale64 ≤ 0 → c = ⌈quantValue 200 Binary32.scale64⌉) ∧
          |(c : ℚ) - (((200 : Nat) : ℚ) / 255 - 1 / 2) * 2 * Binary32.scale64.val| <
            1 + 1 / 2 ^ 13)) :=
  ⟨⟨by decide, by rw [scale64_val]; norm_num⟩,
    quantize_trunc_range 200 Binary32.scale64 (by decide) (by rw [scale64_val]; norm_num)⟩

/-- C7, as stated, fails: at scale 128 the byte 255 is stored as -128 and the smaller
byte 254 as 126. -/
theorem quantize_not_monotone :
    quantize 255 Binary32.scale128 = some (-128) ∧
      quantize 254 Binary32.scale128 = some 126 ∧
      ¬ (∀ (s : Binary32) (a b : Nat), 0 < (s.val : ℚ) → a ≤ 255 → b < a →
          ∃ ca cb, quantize a s = some ca ∧ quantize b s = some cb ∧ cb ≤ ca) := by
  refine ⟨quantize_255_128, quantize_254_128, ?_⟩
  intro hall
  have hs : (0 : ℚ) < Binary32.scale128.val := by rw [scale128_val]; norm_num
  obtain ⟨ca, cb, ha, hb, hle⟩ := hall Binary32.scale128 255 254 hs (by decide) (by decide)
  rw [quantize_255_128] at ha
  rw [quantize_254_128] at hb
  simp only [Option.some.injEq] at ha hb
  omega

/-- C7 (amended): for every `float` scale `s` with `0 < s < 128` and every two pixel
bytes `a > b` in `0..255`, both codes are stored and the code stored for `a` is at
least the code stored for `b`. -/
theorem quantize_monotone (s : Binary32) (a b : Nat) (hs : 0 < (s.val : ℚ))
    (hs2 : (s.val : ℚ) < 128) (ha : a ≤ 255) (hab : b < a) :
    ∃ ca cb, quantize a s = some ca ∧ quantize b s = some cb ∧ cb ≤ ca :=
  ⟨truncToInt (quantValue a s), truncToInt (quantValue b s),
    (quantize_eq_trunc ha hs hs2).1, (quantize_eq_trunc (by omega) hs hs2).1,
    truncToInt_mono (quantValue_mono hs (le_of_lt hab))⟩

/-- Witness of `quantize_monotone`: bytes 2 and 200 at scale 64. -/
theorem quantize_monotone_witness :
    (0 < (Binary32.scale64.val : ℚ) ∧ (Binary32.scale64.val : ℚ) < 128 ∧ 200 ≤ 255 ∧
        2 < 200) ∧
      ∃ ca cb, quantize 200 Binary32.scale64 = some ca ∧
        quantize 2 Binary32.scale64 = some cb ∧ cb ≤ ca :=
  ⟨⟨by rw [scale64_val]; norm_num, by rw [scale64_val]; norm_num, by decide, by decide⟩,
    quantize_monotone Binary32.scale64 200 2 (by rw [scale64_val]; norm_num)
      (by rw [scale64_val]; norm_num) (by decide) (by decide)⟩

/-! ## Theorems: offsets written by the preprocessing loop -/

theorem flatMap_range_blocks (b m : Nat) :
    ∀ n : Nat, ((List.range n).flatMap fun k => List.range' (b + k * m) m) =
      List.range' b (n * m) := by
  intro n
  induction n with
  | zero => simp
  | succ n ih =>
    rw [List.range_succ, List.flatMap_append, ih]
    simp only [List.flatMap_cons, List.flatMap_nil, List.append_nil]
    rw [Nat.succ_mul, Nat.add_comm (n * m) m]
    exact (List.range'_append_1 b (n * m) m)

theorem pixel_index_lt {H W h w c : Nat} (hh : h < H) (hw : w < W) (hc : c < 3) :
    h * W * 3 + w * 3 + c < H * W * 3 := by
  have h1 : (h + 1) * W ≤ H * W := Nat.mul_le_mul_right W hh
  have h2 : (h + 1) * W = h * W + W := by ring
  have h3 : h * W * 3 = 3 * (h * W) := by ring
  have h4 : H * W * 3 = 3 * (H * W) := by ring
  omega

theorem slot_index_lt {inSize B i x : Nat} (hi : i < B) (hx : x < inSize) :
    i * inSize + x < inSize * B := by
  have h1 : (i + 1) * inSize ≤ B * inSize := Nat.mul_le_mul_right inSize hi
  have h2 : (i + 1) * inSize = i * inSize + inSize := by ring
  have h3 : inSize * B = B * inSize := by ring
  omega

theorem offsetIndex_eq (inSize W i h w c : Nat) :
    offsetIndex inSize W i h w c = i * inSize + (h * W * 3 + w * 3 + c) := by
  unfold offsetIndex
  omega

theorem offset_exact {H W B i h w c : Nat} (halloc : H * W * 3 * B < 2 ^ 31)
    (hi : i < B) (hh : h < H) (hw : w < W) (hc : c < 3) :
    offset (H * W * 3) W i h w c = offsetIndex (H * W * 3) W i h w c := by
  have hx := pixel_index_lt hh hw hc
  have hs := slot_index_lt hi hx
  unfold offset
  apply Nat.mod_eq_of_lt
  rw [offsetIndex_eq]
  omega

theorem slot_split {n a b a' b' : Nat} (hb : b < n) (hb' : b' < n)
    (e : a * n + b = a' * n + b') : a = a' ∧ b = b' := by
  have hn : 0 < n := by omega
  have e1 : (a * n + b) / n = a := by
    rw [Nat.mul_comm, Nat.mul_add_div hn, Nat.div_eq_of_lt hb]; simp
  have e2 : (a' * n + b') / n = a' := by
    rw [Nat.mul_comm, Nat.mul_add_div hn, Nat.div_eq_of_lt hb']; simp
  have ha : a = a' := by rw [← e1, ← e2, e]
  subst ha
  exact ⟨rfl, by omega⟩

theorem pixel_split {W h w c h' w' c' : Nat} (hw : w < W) (hw' : w' < W) (hc : c < 3)
    (hc' : c' < 3) (e : h * W * 3 + w * 3 + c = h' * W * 3 + w' * 3 + c') :
    h = h' ∧ w = w' ∧ c = c' := by
  have e' : (h * W + w) * 3 + c = (h' * W + w') * 3 + c' := by
    have a1 : (h * W + w) * 3 = h * W * 3 + w * 3 := by ring
    have a2 : (h' * W + w') * 3 = h' * W * 3 + w' * 3 := by ring
    omega
  obtain ⟨e1, e2⟩ := slot_split hc hc' e'
  obtain ⟨e3, e4⟩ := slot_split hw hw' e1
  exact ⟨e3, e4, e2⟩

theorem preprocess_offsets {H W B i : Nat} (s : Binary32) (image2 : Nat → Nat → Nat → Fin 256)
    (halloc : H * W * 3 * B < 2 ^ 31) (hi : i < B) :
    (preprocess (H * W * 3) H W s i image2).map Prod.fst =
      List.range' (i * (H * W * 3)) (H * W * 3) := by
  unfold preprocess
  rw [List.map_flatMap]
  have inner : ∀ h ∈ List.range H,
      List.map Prod.fst ((List.range W).flatMap fun w => (List.range 3).map fun c =>
        (offset (H * W * 3) W i h w c, quantize (image2 h w c).val s)) =
      List.range' (i * (H * W * 3) + h * (W * 3)) (W * 3) := by
    intro h hh
    have hh' : h < H := List.mem_range.mp hh
    rw [List.map_flatMap]
    have row : ∀ w ∈ List.range W,
        List.map Prod.fst ((List.range 3).map fun c =>
          (offset (H * W * 3) W i h w c, quantize (image2 h w c).val s)) =
        List.range' ((i * (H * W * 3) + h * (W * 3)) + w * 3) 3 := by
      intro w hw
      have hw' : w < W := List.mem_range.mp hw
      rw [List.map_map, List.range'_eq_map_range]
      apply List.map_congr_left
      intro c hc
      have hc' : c < 3 := List.mem_range.mp hc
      simp only [Function.comp]
      rw [offset_exact halloc hi hh' hw' hc', offsetIndex_eq]
      ring
    rw [List.flatMap_congr row]
    exact flatMap_range_blocks _ 3 W
  rw [List.flatMap_congr inner]
  have := flatMap_range_blocks (i * (H * W * 3)) (W * 3) H
  rw [this]
  congr 1
  ring

theorem flatMap_length_const {β γ : Type} (f : β → List γ) (m : Nat) :
    ∀ l : List β, (∀ x ∈ l, (f x).length = m) → (l.flatMap f).length = l.length * m
  | [], _ => by simp
  | x :: xs, h => by
    rw [List.flatMap_cons, List.length_append, h x (List.mem_cons_self _ _),
      flatMap_length_const f m xs (fun y hy => h y (List.mem_cons_of_mem _ hy)),
      List.length_cons, Nat.succ_mul, Nat.add_comm]

/-- Every code written by the preprocessing loop is the quantization of a pixel byte
of the image and lies in `[-128, 127]`; the loop performs `inHeight*inWidth*3` writes. -/
theorem preprocess_codes (inSize H W : Nat) (s : Binary32) (i : Nat)
    (image2 : Nat → Nat → Nat → Fin 256) :
    (∀ wr ∈ preprocess inSize H W s i image2,
      (∃ h w c, h < H ∧ w < W ∧ c < 3 ∧ wr.2 = quantize (image2 h w c).val s) ∧
        ∀ code, wr.2 = some code → -128 ≤ code ∧ code ≤ 127) ∧
      (preprocess inSize H W s i image2).length = H * W * 3 := by
  constructor
  · intro wr hwr
    unfold preprocess at hwr
    simp only [List.mem_flatMap, List.mem_map, List.mem_range] at hwr
    obtain ⟨h, hh, w, hw, c, hc, rfl⟩ := hwr
    exact ⟨⟨h, w, c, hh, hw, hc, rfl⟩, fun code hcode => castInt8_range hcode⟩
  · unfold preprocess
    rw [flatMap_length_const _ (W * 3), List.length_range, Nat.mul_assoc]
    intro h _
    rw [flatMap_length_const _ 3, List.length_range]
    intro w _
    simp

/-- C6: with `inSize = H*W*3` and `runSize ≤ B`, the offset
`i*inSize + h*W*3 + w*3 + c` is injective over all `(i, h, w, c)` with `i < runSize`,
`h < H`, `w < W`, `c < 3`, lies inside the input buffer `[0, inSize*B)`, and for each
slot `i` the offsets are exactly the positions `[i*inSize, (i+1)*inSize)`, so the
regions of different slots are disjoint. Whenever the buffer of line 202 can be
allocated (its `int` size `inSize*B` is below `2^31`), the `unsigned int` index the
program computes is that offset, and the writes of the loop for slot `i` go to
`i*inSize, i*inSize+1, ...`, each of the `H*W*3` positions once. -/
theorem offset_injective_in_buffer (H W B runSize : Nat) (hrun : runSize ≤ B) :
    (∀ i h w c i' h' w' c', i < runSize → h < H → w < W → c < 3 →
        i' < runSize → h' < H → w' < W → c' < 3 →
        offsetIndex (H * W * 3) W i h w c = offsetIndex (H * W * 3) W i' h' w' c' →
        i = i' ∧ h = h' ∧ w = w' ∧ c = c') ∧
      (∀ i h w c, i < runSize → h < H → w < W → c < 3 →
        offsetIndex (H * W * 3) W i h w c < H * W * 3 * B) ∧
      (∀ i, i < runSize → ∀ p, (i * (H * W * 3) ≤ p ∧ p < (i + 1) * (H * W * 3)) ↔
        ∃ h w c, h < H ∧ w < W ∧ c < 3 ∧ offsetIndex (H * W * 3) W i h w c = p) ∧
      (∀ i i' h w c h' w' c', i < runSize → i' < runSize → i ≠ i' →
        h < H → w < W → c < 3 → h' < H → w' < W → c' < 3 →
        offsetIndex (H * W * 3) W i h w c ≠ offsetIndex (H * W * 3) W i' h' w' c') ∧
      (H * W * 3 * B < 2 ^ 31 →
        (∀ i h w c, i < runSize → h < H → w < W → c < 3 →
          offset (H * W * 3) W i h w c = offsetIndex (H * W * 3) W i h w c) ∧
        (∀ i, i < runSize → ∀ (s : Binary32) (image2 : Nat → Nat → Nat → Fin 256),
          (preprocess (H * W * 3) H W s i image2).map Prod.fst =
            List.range' (i * (H * W * 3)) (H * W * 3))) := by
  have inj : ∀ i h w c i' h' w' c', i < runSize → h < H → w < W → c < 3 →
      i' < runSize → h' < H → w' < W → c' < 3 →
      offsetIndex (H * W * 3) W i h w c = offsetIndex (H * W * 3) W i' h' w' c' →
      i = i' ∧ h = h' ∧ w = w' ∧ c = c' := by
    intro i h w c i' h' w' c' _ hh hw hc _ hh' hw' hc' e
    rw [offsetIndex_eq, offsetIndex_eq] at e
    obtain ⟨ei, ex⟩ := slot_split (pixel_index_lt hh hw hc) (pixel_index_lt hh' hw' hc') e
    exact ⟨ei, pixel_split hw hw' hc hc' ex⟩
  refine ⟨inj, ?_, ?_, ?_, ?_⟩
  · intro i h w c hi hh hw hc
    rw [offsetIndex_eq]
    exact slot_index_lt (lt_of_lt_of_le hi hrun) (pixel_index_lt hh hw hc)
  · intro i _ p
    constructor
    · rintro ⟨lo, hi2⟩
      have hsz : (i + 1) * (H * W * 3) = i * (H * W * 3) + H * W * 3 := by ring
      have hx : p - i * (H * W * 3) < H * W * 3 := by omega
      have hW : 0 < W := by
        rcases Nat.eq_zero_or_pos W with h0 | h0
        · subst h0; simp at hx
        · exact h0
      set x := p - i * (H * W * 3) with hxdef
      have hq : x / 3 < H * W := by
        apply Nat.div_lt_of_lt_mul; rw [Nat.mul_comm]; exact hx
      refine ⟨x / 3 / W, x / 3 % W, x % 3, ?_, Nat.mod_lt _ hW, Nat.mod_lt _ (by decide), ?_⟩
      · apply Nat.div_lt_of_lt_mul; rw [Nat.mul_comm]; exact hq
      · rw [offsetIndex_eq]
        have d1 : x / 3 / W * W + x / 3 % W = x / 3 := Nat.div_add_mod' _ _
        have d2 : x / 3 * 3 + x % 3 = x := Nat.div_add_mod' _ _
        have d3 : x / 3 / W * W * 3 + x / 3 % W * 3 = (x / 3 / W * W + x / 3 % W) * 3 := by ring
        rw [d1] at d3
        omega
    · rintro ⟨h, w, c, hh, hw, hc, e⟩
      have b1 := pixel_index_lt hh hw hc
      have hsz : (i + 1) * (H * W * 3) = i * (H * W * 3) + H * W * 3 := by ring
      rw [offsetIndex_eq] at e
      omega
  · intro i i' h w c h' w' c' hi hi' hne hh hw hc hh' hw' hc' e
    exact hne (inj i h w c i' h' w' c' hi hh hw hc hi' hh' hw' hc' e).1
  · intro halloc
    refine ⟨?_, ?_⟩
    · intro i h w c hi hh hw hc
      exact offset_exact halloc (lt_of_lt_of_le hi hrun) hh hw hc
    · intro i hi s image2
      exact preprocess_offsets s image2 halloc (lt_of_lt_of_le hi hrun)

/-- Witness of `offset_injective_in_buffer`: a 32x32 input and batch capacity 4, the
last batch holding 3 images. -/
theorem offset_injective_in_buffer_witness :
    3 ≤ 4 ∧ ∀ i h w c, i < 3 → h < 32 → w < 32 → c < 3 →
      offsetIndex (32 * 32 * 3) 32 i h w c < 32 * 32 * 3 * 4 :=
  ⟨by decide, (offset_injective_in_buffer 32 32 4 3 (by decide)).2.1⟩

/-! ## Theorems: image-name selection -/

theorem lastIndexOf_eq_none {c : Char} : ∀ {l : List Char}, c ∉ l → lastIndexOf c l = none
  | [], _ => rfl
  | x :: xs, h => by
    have hx : x ≠ c := fun e => h (by simp [e])
    have hxs : c ∉ xs := fun m => h (List.mem_cons_of_mem _ m)
    simp [lastIndexOf, lastIndexOf_eq_none hxs, hx]

theorem lastIndexOf_append_cons {c : Char} {e : List Char} (he : c ∉ e) :
    ∀ stem : List Char, lastIndexOf c (stem ++ c :: e) = some stem.length
  | [] => by simp [lastIndexOf, lastIndexOf_eq_none he]
  | x :: xs => by
    simp [lastIndexOf, lastIndexOf_append_cons he xs]

theorem extOf_of_dot {stem e : List Char} (hdot : '.' ∉ e)
    (hlen : (stem ++ '.' :: e).length < 2 ^ 64) : extOf (String.mk (stem ++ '.' :: e)) = e := by
  have hl : stem.length + 1 < 2 ^ 64 := by
    simp only [List.length_append, List.length_cons] at hlen
    omega
  unfold extOf find_last_of substr
  simp only [lastIndexOf_append_cons hdot stem, Option.getD_some]
  rw [Nat.mod_eq_of_lt hl]
  simp

theorem isImageName_iff (name : String) :
    isImageName name = true ↔ extOf name ∈ acceptedExts := by
  simp [isImageName, acceptedExts, or_assoc]

theorem mem_selectImages (name : String) :
    ∀ entries : List DirEnt, name ∈ selectImages entries ↔
      ∃ entry ∈ entries, entry.d_name = name ∧
        (entry.d_type = DType.DT_REG ∨ entry.d_type = DType.DT_UNKNOWN) ∧
        isImageName name = true
  | [] => by simp [selectImages]
  | entry :: rest => by
    have ih := mem_selectImages name rest
    unfold selectImages
    by_cases ht : entry.d_type = DType.DT_REG ∨ entry.d_type = DType.DT_UNKNOWN
    · by_cases hi : isImageName entry.d_name = true
      · rw [if_pos ht, if_pos hi, List.mem_cons, ih]
        constructor
        · rintro (h | ⟨e2, hm, h2⟩)
          · exact ⟨entry, List.mem_cons_self _ _, h.symm, ht, by rw [h]; exact hi⟩
          · exact ⟨e2, List.mem_cons_of_mem _ hm, h2⟩
        · rintro ⟨e2, hm, h2⟩
          rcases List.mem_cons.mp hm with h | h
          · left; rw [← h2.1, h]
          · right; exact ⟨e2, h, h2⟩
      · rw [if_pos ht, if_neg hi, ih]
        constructor
        · rintro ⟨e2, hm, h2⟩
          exact ⟨e2, List.mem_cons_of_mem _ hm, h2⟩
        · rintro ⟨e2, hm, h2⟩
          rcases List.mem_cons.mp hm with h | h
          · exfalso; apply hi; rw [← h, h2.1]; exact h2.2.2
          · exact ⟨e2, h, h2⟩
    · rw [if_neg ht, ih]
      constructor
      · rintro ⟨e2, hm, h2⟩
        exact ⟨e2, List.mem_cons_of_mem _ hm, h2⟩
      · rintro ⟨e2, hm, h2⟩
        rcases List.mem_cons.mp hm with h | h
        · exfalso; apply ht; rw [← h]; exact h2.2.1
        · exact ⟨e2, h, h2⟩

/-- C8, as stated, fails: the regular file `a.Jpg` has the extension `jpg` compared
case-insensitively, and `ListImages` does not select it. -/
theorem ListImages_mixed_case_ignored :
    specSelects "a.Jpg" = true ∧
      selectImages [⟨DType.DT_REG, "a.Jpg"⟩] = [] ∧
      ¬ (∀ name : String, name ∈ selectImages [⟨DType.DT_REG, name⟩] ↔
          specSelects name = true) := by
  refine ⟨by decide, by decide, ?_⟩
  intro hall
  have h := (hall "a.Jpg").mpr (by decide)
  exact absurd h (by decide)

/-- C8 (amended): for every regular-file name of the image directory that contains a
`.`, `ListImages` selects the name if and only if the text after its last `.` is
exactly one of `JPEG`, `jpeg`, `JPG`, `jpg`, `PNG`, `png` (all upper case or all lower
case; other spellings and other extensions are ignored). The name is `stem ++ "." ++ e`
with no `.` in `e`, and its length is in the range of `size_t`. -/
theorem ListImages_selects_iff (entries : List DirEnt) (stem e : List Char)
    (hdot : '.' ∉ e) (hlen : (stem ++ '.' :: e).length < 2 ^ 64)
    (hmem : (⟨DType.DT_REG, String.mk (stem ++ '.' :: e)⟩ : DirEnt) ∈ entries) :
    ∃ images, ListImages true true entries = Except.ok images ∧
      (String.mk (stem ++ '.' :: e) ∈ images ↔ e ∈ acceptedExts) := by
  refine ⟨selectImages entries, rfl, ?_⟩
  rw [mem_selectImages, isImageName_iff, extOf_of_dot hdot hlen]
  constructor
  · rintro ⟨_, _, _, _, h⟩
    exact h
  · intro h
    exact ⟨_, hmem, rfl, Or.inl rfl, h⟩

/-- Witness of `ListImages_selects_iff`: the directory holding `a.jpg` and `b.txt`. -/
theorem ListImages_selects_iff_witness :
    ('.' ∉ "jpg".data ∧ ("a".data ++ '.' :: "jpg".data).length < 2 ^ 64 ∧
      (⟨DType.DT_REG, String.mk ("a".data ++ '.' :: "jpg".data)⟩ : DirEnt) ∈
        [(⟨DType.DT_REG, "a.jpg"⟩ : DirEnt), ⟨DType.DT_REG, "b.txt"⟩]) ∧
      ∃ images, ListImages true true [⟨DType.DT_REG, "a.jpg"⟩, ⟨DType.DT_REG, "b.txt"⟩] =
          Except.ok images ∧
        (String.mk ("a".data ++ '.' :: "jpg".data) ∈ images ↔ "jpg".data ∈ acceptedExts) :=
  ⟨⟨by decide, by decide, by decide⟩,
    ListImages_selects_iff [⟨DType.DT_REG, "a.jpg"⟩, ⟨DType.DT_REG, "b.txt"⟩]
      "a".data "jpg".data (by decide) (by decide) (by decide)⟩

/-! ## Theorems: softmax -/

theorem roundTo_err_normal {K : Type} [LinearOrderedField K] [FloorRing K]
    (p : Nat) (emin : Int) {x : K} (hx : (2 : K) ^ emin ≤ |x|) :
    |roundTo p emin x - x| ≤ |x| * (2 : K) ^ (-(p : Int)) := by
  have hpos : 0 < |x| := lt_of_lt_of_le (two_zpow_pos emin) hx
  have hlog : emin < Int.log 2 |x| + 1 :=
    two_zpow_lt_iff.mp (lt_of_le_of_lt hx (lt_log2 |x|))
  have hb : binade emin x = Int.log 2 |x| := by
    unfold binade
    exact max_eq_left (by omega)
  have herr := roundTo_err p emin x
  have hu : ulp p emin x / 2 = (2 : K) ^ (Int.log 2 |x|) * (2 : K) ^ (-(p : Int)) := by
    unfold ulp
    rw [hb, ← two_zpow_add]
    have : Int.log 2 |x| - ((p : Int) - 1) = (Int.log 2 |x| + -(p : Int)) + 1 := by ring
    rw [this, two_zpow_add ((Int.log 2 |x| + -(p : Int))) 1]
    simp
  rw [hu] at herr
  exact herr.trans (mul_le_mul_of_nonneg_right (log2_le hpos) (le_of_lt (two_zpow_pos _)))

theorem f64_err {K : Type} [LinearOrderedField K] [FloorRing K] {x : K}
    (hx : 1 / 2 ^ 1022 ≤ x) : |f64 x - x| ≤ x / 2 ^ 53 := by
  have hpos : 0 < x := lt_of_lt_of_le (by positivity) hx
  have e0 : (2 : K) ^ (-1022 : Int) = 1 / 2 ^ 1022 := by
    rw [zpow_neg, one_div]; norm_cast
  have h := roundTo_err_normal (K := K) 53 (-1022) (x := x)
    (by rw [abs_of_pos hpos, e0]; exact hx)
  have e1 : (2 : K) ^ (-((53 : Nat) : Int)) = 1 / 2 ^ 53 := by
    rw [zpow_neg, one_div]; norm_cast
  rw [e1, abs_of_pos hpos] at h
  calc |f64 x - x| ≤ x * (1 / 2 ^ 53) := h
    _ = x / 2 ^ 53 := by ring

theorem f32_err_rel_gen {K : Type} [LinearOrderedField K] [FloorRing K] (x : K) :
    |f32 x - x| ≤ |x| / 2 ^ 24 + 1 / 2 ^ 150 := by
  have h := roundTo_err_rel (K := K) 24 (-126) x
  have e1 : (2 : K) ^ (-((24 : Nat) : Int)) = 1 / 2 ^ 24 := by
    rw [zpow_neg, one_div]; norm_cast
  have e2 : (2 : K) ^ ((-126 : Int) - ((24 : Nat) : Int)) = 1 / 2 ^ 150 := by
    have : (-126 : Int) - ((24 : Nat) : Int) = -((150 : Nat) : Int) := by norm_num
    rw [this, zpow_neg, one_div]; norm_cast
  rw [e1, e2] at h
  calc |f32 x - x| ≤ |x| * (1 / 2 ^ 24) + 1 / 2 ^ 150 := h
    _ = |x| / 2 ^ 24 + 1 / 2 ^ 150 := by ring

theorem one_add_pow_le {K : Type} [LinearOrderedField K] (u : K) (hu : 0 ≤ u) :
    ∀ n : Nat, 2 * (n : K) * u ≤ 1 → (1 + u) ^ n ≤ 1 + 2 * (n : K) * u
  | 0, _ => by simp
  | n + 1, h => by
    have hn : 2 * (n : K) * u ≤ 1 := by
      push_cast at h
      nlinarith
    have ih := one_add_pow_le u hu n hn
    have h1 : (1 + u) ^ (n + 1) ≤ (1 + 2 * (n : K) * u) * (1 + u) := by
      rw [pow_succ]
      exact mul_le_mul_of_nonneg_right ih (by linarith)
    have h2 : (0 : K) ≤ (n : K) := Nat.cast_nonneg n
    push_cast
    nlinarith

theorem one_sub_pow_ge {K : Type} [LinearOrderedField K] (u : K) (hu : 0 ≤ u) (hu1 : u ≤ 1) :
    ∀ n : Nat, 1 - (n : K) * u ≤ (1 - u) ^ n
  | 0 => by simp
  | n + 1 => by
    have ih := one_sub_pow_ge u hu hu1 n
    have h2 : (0 : K) ≤ (n : K) := Nat.cast_nonneg n
    have h4 := mul_le_mul_of_nonneg_right ih (show (0 : K) ≤ 1 - u by linarith)
    have h5 : (0 : K) ≤ (n : K) * (u * u) := mul_nonneg h2 (mul_nonneg hu hu)
    rw [pow_succ]
    push_cast
    nlinarith

theorem sumD_bounds_gen {K : Type} [LinearOrderedField K] [FloorRing K] (u lb : K)
    (hu0 : 0 ≤ u) (hu1 : u ≤ 1) (hlb : 0 < lb)
    (herr : ∀ x : K, lb ≤ x → |f64 x - x| ≤ x * u) :
    ∀ (e : List K) (s : K), 0 ≤ s → (∀ r ∈ e, lb ≤ r) →
      (s + e.sum) * (1 - u) ^ e.length ≤ sumD s e ∧
        sumD s e ≤ (s + e.sum) * (1 + u) ^ e.length
  | [], s, _, _ => by simp [sumD]
  | r :: rs, s, hs, hr => by
    have hr0 : lb ≤ r := hr r (List.mem_cons_self _ _)
    have hrpos : (0 : K) < r := lt_of_lt_of_le hlb hr0
    have he := herr (s + r) (by linarith)
    rw [abs_le] at he
    have hs' : 0 ≤ f64 (s + r) := roundTo_nonneg 53 (-1022) (by linarith)
    obtain ⟨lo, hi⟩ := sumD_bounds_gen u lb hu0 hu1 hlb herr rs (f64 (s + r)) hs'
      (fun x hx => hr x (List.mem_cons_of_mem _ hx))
    have hsum : 0 ≤ rs.sum := List.sum_nonneg (fun x hx =>
      le_of_lt (lt_of_lt_of_le hlb (hr x (List.mem_cons_of_mem _ hx))))
    have hp1 : (0 : K) ≤ (1 - u) ^ rs.length := pow_nonneg (by linarith) _
    have hp2 : (0 : K) ≤ (1 + u) ^ rs.length := pow_nonneg (by linarith) _
    have hsu : 0 ≤ rs.sum * u := mul_nonneg hsum hu0
    rw [sumD, List.sum_cons, List.length_cons, pow_succ, pow_succ]
    constructor
    · refine le_trans ?_ lo
      have h1 : (s + (r + rs.sum)) * (1 - u) ≤ f64 (s + r) + rs.sum := by
        have := he.1
        nlinarith
      calc (s + (r + rs.sum)) * ((1 - u) ^ rs.length * (1 - u))
          = ((s + (r + rs.sum)) * (1 - u)) * (1 - u) ^ rs.length := by ring
        _ ≤ (f64 (s + r) + rs.sum) * (1 - u) ^ rs.length :=
            mul_le_mul_of_nonneg_right h1 hp1
    · refine le_trans hi ?_
      have h1 : f64 (s + r) + rs.sum ≤ (s + (r + rs.sum)) * (1 + u) := by
        have := he.2
        nlinarith
      calc (f64 (s + r) + rs.sum) * (1 + u) ^ rs.length
          ≤ ((s + (r + rs.sum)) * (1 + u)) * (1 + u) ^ rs.length :=
            mul_le_mul_of_nonneg_right h1 hp2
        _ = (s + (r + rs.sum)) * ((1 + u) ^ rs.length * (1 + u)) := by ring

theorem Fp.round_fin {K : Type} [LinearOrderedField K] [FloorRing K] (p : Nat)
    (emin emax : Int) {x : K} (h1 : -(2 : K) ^ (emax + 1) < roundTo p emin x)
    (h2 : roundTo p emin x < (2 : K) ^ (emax + 1)) :
    Fp.round p emin emax x = Fp.fin (roundTo p emin x) := by
  unfold Fp.round
  rw [if_neg (not_le.mpr h2), if_neg (not_le.mpr h1)]

theorem two_zpow_1024 {K : Type} [LinearOrderedField K] :
    (2 : K) ^ ((1023 : Int) + 1) = 2 ^ 1024 := by
  have : ((1023 : Int) + 1) = ((1024 : Nat) : Int) := by norm_num
  rw [this, zpow_natCast]

theorem two_zpow_128 {K : Type} [LinearOrderedField K] :
    (2 : K) ^ ((127 : Int) + 1) = 2 ^ 128 := by
  have : ((127 : Int) + 1) = ((128 : Nat) : Int) := by norm_num
  rw [this, zpow_natCast]

theorem round64_fin {K : Type} [LinearOrderedField K] [FloorRing K] {x : K} (h0 : 0 ≤ x)
    (h : f64 x < 2 ^ 1024) : Fp.round 53 (-1022) 1023 x = Fp.fin (f64 x) := by
  have hn : 0 ≤ f64 x := roundTo_nonneg 53 (-1022) h0
  apply Fp.round_fin
  · rw [two_zpow_1024]
    have : (0 : K) < 2 ^ 1024 := by positivity
    unfold f64 at hn
    linarith
  · rw [two_zpow_1024]; exact h

theorem round32_fin {K : Type} [LinearOrderedField K] [FloorRing K] {x : K} (h0 : 0 ≤ x)
    (h : f32 x < 2 ^ 128) : Fp.round 24 (-126) 127 x = Fp.fin (f32 x) := by
  have hn : 0 ≤ f32 x := roundTo_nonneg 24 (-126) h0
  apply Fp.round_fin
  · rw [two_zpow_128]
    have : (0 : K) < 2 ^ 128 := by positivity
    unfold f32 at hn
    linarith
  · rw [two_zpow_128]; exact h

theorem f64_two {K : Type} [LinearOrderedField K] [FloorRing K] : f64 (2 : K) = 2 := by
  have h := roundTo_two_zpow (K := K) 53 (-1022) (by decide) 1 (by decide)
  simpa [f64] using h

theorem f32_two {K : Type} [LinearOrderedField K] [FloorRing K] : f32 (2 : K) = 2 := by
  have h := roundTo_two_zpow (K := K) 24 (-126) (by decide) 1 (by decide)
  simpa [f32] using h

theorem f64_le_two {K : Type} [LinearOrderedField K] [FloorRing K] {x : K} (h : x ≤ 2) :
    f64 x ≤ 2 := by
  have := roundTo_mono (K := K) 53 (-1022) (by decide) h
  rw [show roundTo 53 (-1022) (2 : K) = 2 from f64_two] at this
  exact this

theorem f32_le_two {K : Type} [LinearOrderedField K] [FloorRing K] {x : K} (h : x ≤ 2) :
    f32 x ≤ 2 := by
  have := roundTo_mono (K := K) 24 (-126) (by decide) h
  rw [show roundTo 24 (-126) (2 : K) = 2 from f32_two] at this
  exact this

/-- Under the hypothesis that every exponential is a positive finite `float`, the list
of these values. -/
theorem exists_exps {K : Type} [LinearOrderedField K] [FloorRing K] (ex : Fp K → Fp K)
    (scale : Binary32) :
    ∀ data : List Int,
      (∀ d ∈ data, ∃ r : K, 1 / 2 ^ 149 ≤ r ∧ r < 2 ^ 128 ∧ ex (expArg scale d) = Fp.fin r) →
      ∃ e : List K, data.map (fun d => ex (expArg scale d)) = e.map Fp.fin ∧
        e.length = data.length ∧ ∀ r ∈ e, 1 / 2 ^ 149 ≤ r ∧ r < 2 ^ 128
  | [], _ => ⟨[], rfl, rfl, by simp⟩
  | d :: ds, h => by
    obtain ⟨r, h1, h2, h3⟩ := h d (List.mem_cons_self _ _)
    obtain ⟨e, he, hl, hb⟩ := exists_exps ex scale ds
      (fun x hx => h x (List.mem_cons_of_mem _ hx))
    refine ⟨r :: e, ?_, by simp [hl], ?_⟩
    · simp only [List.map_cons, h3, he]
    · intro x hx
      rcases List.mem_cons.mp hx with rfl | hx'
      · exact ⟨h1, h2⟩
      · exact hb x hx'

theorem softmaxAccum_eq {K : Type} [LinearOrderedField K] [FloorRing K] (ex : Fp K → Fp K)
    (scale : Binary32) :
    ∀ (data : List Int) (e : List K) (res : List (Fp K)) (s : K),
      data.map (fun d => ex (expArg scale d)) = e.map Fp.fin → 0 ≤ s →
      (∀ r ∈ e, 1 / 2 ^ 1022 ≤ r) →
      (s + e.sum) * (1 + 1 / 2 ^ 53) ^ e.length < 2 ^ 1024 →
      softmaxAccum ex scale data (res, Fp.fin s) = (res ++ e.map Fp.fin, Fp.fin (sumD s e))
  | [], [], res, s, _, _, _, _ => by simp [softmaxAccum, sumD]
  | [], _ :: _, _, _, h, _, _, _ => by simp at h
  | _ :: _, [], _, _, h, _, _, _ => by simp at h
  | d :: ds, r :: rs, res, s, h, hs, hr, hb => by
    simp only [List.map_cons, List.cons.injEq] at h
    obtain ⟨h1, h2⟩ := h
    have hr0 : (1 : K) / 2 ^ 1022 ≤ r := hr r (List.mem_cons_self _ _)
    have hrpos : (0 : K) < r := lt_of_lt_of_le (by positivity) hr0
    have hsum : 0 ≤ rs.sum := List.sum_nonneg (fun x hx =>
      le_of_lt (lt_of_lt_of_le (by positivity) (hr x (List.mem_cons_of_mem _ hx))))
    have herr := f64_err (K := K) (x := s + r) (by linarith)
    rw [abs_le] at herr
    have hp : (1 : K) ≤ (1 + 1 / 2 ^ 53) ^ rs.length := one_le_pow₀ (by norm_num)
    have hstep : (f64 (s + r) + rs.sum) * (1 + 1 / 2 ^ 53) ^ rs.length ≤
        (s + (r :: rs).sum) * (1 + 1 / 2 ^ 53) ^ (r :: rs).length := by
      rw [List.sum_cons, List.length_cons, pow_succ (1 + 1 / 2 ^ 53 : K) rs.length]
      have h3 : f64 (s + r) + rs.sum ≤ (s + (r + rs.sum)) * (1 + 1 / 2 ^ 53) := by
        have := herr.2
        have : 0 ≤ rs.sum * (1 / 2 ^ 53 : K) := mul_nonneg hsum (by positivity)
        nlinarith
      calc (f64 (s + r) + rs.sum) * (1 + 1 / 2 ^ 53) ^ rs.length
          ≤ ((s + (r + rs.sum)) * (1 + 1 / 2 ^ 53)) * (1 + 1 / 2 ^ 53) ^ rs.length :=
            mul_le_mul_of_nonneg_right h3 (by linarith)
        _ = (s + (r + rs.sum)) * ((1 + 1 / 2 ^ 53) ^ rs.length * (1 + 1 / 2 ^ 53)) := by ring
    have hs' : 0 ≤ f64 (s + r) := roundTo_nonneg 53 (-1022) (by linarith)
    have hlt : f64 (s + r) < 2 ^ 1024 := by
      have h4 : f64 (s + r) ≤ (f64 (s + r) + rs.sum) * (1 + 1 / 2 ^ 53) ^ rs.length := by
        have : f64 (s + r) + rs.sum ≤
            (f64 (s + r) + rs.sum) * (1 + 1 / 2 ^ 53) ^ rs.length :=
          le_mul_of_one_le_right (by linarith) hp
        linarith
      exact lt_of_le_of_lt (h4.trans hstep) hb
    have hadd : Fp.add64 (Fp.fin s) (Fp.fin r) = Fp.fin (f64 (s + r)) := by
      show Fp.round 53 (-1022) 1023 (s + r) = _
      exact round64_fin (by linarith) hlt
    rw [softmaxAccum]
    simp only [h1, hadd]
    rw [softmaxAccum_eq ex scale ds rs _ _ h2 hs' (fun x hx => hr x (List.mem_cons_of_mem _ hx))
      (lt_of_le_of_lt hstep hb)]
    simp [sumD]

theorem sum_le_length_mul {K : Type} [LinearOrderedField K] (c : K) :
    ∀ e : List K, (∀ r ∈ e, r ≤ c) → e.sum ≤ (e.length : K) * c
  | [], _ => by simp
  | r :: rs, h => by
    have h1 := h r (List.mem_cons_self _ _)
    have h2 := sum_le_length_mul c rs (fun x hx => h x (List.mem_cons_of_mem _ hx))
    rw [List.sum_cons, List.length_cons]
    push_cast
    linarith

theorem le_sum_of_mem {K : Type} [LinearOrderedField K] :
    ∀ e : List K, (∀ r ∈ e, 0 ≤ r) → ∀ r ∈ e, r ≤ e.sum
  | [], _, r, hr => by simp at hr
  | x :: xs, h, r, hr => by
    have hx := h x (List.mem_cons_self _ _)
    have hs : 0 ≤ xs.sum := List.sum_nonneg (fun y hy => h y (List.mem_cons_of_mem _ hy))
    rw [List.sum_cons]
    rcases List.mem_cons.mp hr with rfl | hr'
    · linarith
    · have := le_sum_of_mem xs (fun y hy => h y (List.mem_cons_of_mem _ hy)) r hr'
      linarith

theorem sum_map_affine {K : Type} [LinearOrderedField K] (c k : K) :
    ∀ e : List K, (e.map (fun r => r * c + k)).sum = e.sum * c + (e.length : K) * k
  | [] => by simp
  | r :: rs => by
    rw [List.map_cons, List.sum_cons, sum_map_affine c k rs, List.sum_cons, List.length_cons]
    push_cast
    ring

theorem abs_sum_sub_le {K : Type} [LinearOrderedField K] (f g h : K → K) :
    ∀ e : List K, (∀ r ∈ e, |f r - g r| ≤ h r) →
      |(e.map f).sum - (e.map g).sum| ≤ (e.map h).sum
  | [], _ => by simp
  | r :: rs, hb => by
    have h1 := hb r (List.mem_cons_self _ _)
    have h2 := abs_sum_sub_le f g h rs (fun x hx => hb x (List.mem_cons_of_mem _ hx))
    simp only [List.map_cons, List.sum_cons]
    rw [abs_le] at h1 h2 ⊢
    constructor <;> linarith [h1.1, h1.2, h2.1, h2.2]

theorem chain_upper {K : Type} [LinearOrderedField K] {w q d x c1 c2 c3 c eta : K}
    (h1 : q ≤ w * c1) (h2 : d ≤ q * c2) (h3 : x ≤ d * c3 + eta) (hw : 0 ≤ w)
    (hc2 : 0 ≤ c2) (hc3 : 0 ≤ c3) (hc : c1 * c2 * c3 ≤ c) : x ≤ w * c + eta := by
  have a1 : q * c2 ≤ w * c1 * c2 := mul_le_mul_of_nonneg_right h1 hc2
  have a2 : d * c3 ≤ w * c1 * c2 * c3 := mul_le_mul_of_nonneg_right (h2.trans a1) hc3
  have a3 : w * (c1 * c2 * c3) ≤ w * c := mul_le_mul_of_nonneg_left hc hw
  have a4 : w * c1 * c2 * c3 = w * (c1 * c2 * c3) := by ring
  linarith only [a2, a3, a4, h3]

theorem chain_lower {K : Type} [LinearOrderedField K] {w q d x c1 c2 c3 c eta : K}
    (h1 : w * c1 ≤ q) (h2 : q * c2 ≤ d) (h3 : d * c3 - eta ≤ x) (hw : 0 ≤ w)
    (hc2 : 0 ≤ c2) (hc3 : 0 ≤ c3) (hc : c ≤ c1 * c2 * c3) : w * c - eta ≤ x := by
  have a1 : w * c1 * c2 ≤ q * c2 := mul_le_mul_of_nonneg_right h1 hc2
  have a2 : w * c1 * c2 * c3 ≤ d * c3 := mul_le_mul_of_nonneg_right (a1.trans h2) hc3
  have a3 : w * c ≤ w * (c1 * c2 * c3) := mul_le_mul_of_nonneg_left hc hw
  have a4 : w * c1 * c2 * c3 = w * (c1 * c2 * c3) := by ring
  linarith only [a2, a3, a4, h3]

theorem quotient_upper {K : Type} [LinearOrderedField K] {T S r a b : K} (hT : 0 < T)
    (hr : 0 < r) (hS : 0 < S) (hS1 : T * b ≤ S) (ha : 0 ≤ a) (hab : 1 ≤ a * b) :
    r / S ≤ r / T * a := by
  rw [div_le_iff₀ hS]
  have hw0 : 0 ≤ r / T := le_of_lt (div_pos hr hT)
  have h1 : r / T * a * (T * b) ≤ r / T * a * S :=
    mul_le_mul_of_nonneg_left hS1 (mul_nonneg hw0 ha)
  have h2 : r / T * a * (T * b) = (r / T * T) * (a * b) := by ring
  have h3 : r / T * T = r := div_mul_cancel₀ r (ne_of_gt hT)
  have h4 : r ≤ r * (a * b) := le_mul_of_one_le_right (le_of_lt hr) hab
  rw [h2, h3] at h1
  exact h4.trans h1

theorem quotient_lower {K : Type} [LinearOrderedField K] {T S r a b : K} (hT : 0 < T)
    (hr : 0 < r) (hS : 0 < S) (hS2 : S ≤ T * b) (ha : 0 ≤ a) (hab : a * b ≤ 1) :
    r / T * a ≤ r / S := by
  rw [le_div_iff₀ hS]
  have hw0 : 0 ≤ r / T := le_of_lt (div_pos hr hT)
  have h1 : r / T * a * S ≤ r / T * a * (T * b) :=
    mul_le_mul_of_nonneg_left hS2 (mul_nonneg hw0 ha)
  have h2 : r / T * a * (T * b) = (r / T * T) * (a * b) := by ring
  have h3 : r / T * T = r := div_mul_cancel₀ r (ne_of_gt hT)
  have h4 : r * (a * b) ≤ r := mul_le_of_le_one_right (le_of_lt hr) hab
  rw [h2, h3] at h1
  exact h1.trans h4

/-- One entry of the second loop: with the `double` sum `S` within the accumulation
error of the exact sum `T`, the stored `float` is within relative error `2^-20` (and
`2^-150`) of `r / T`. -/
theorem entry_bound {K : Type} [LinearOrderedField K] [FloorRing K] {T S r : K}
    (hT : 0 < T) (hT2 : T ≤ 2 ^ 159) (hS1 : T * (1 - 1 / 2 ^ 22) ≤ S)
    (hS2 : S ≤ T * (1 + 1 / 2 ^ 21)) (hr1 : 1 / 2 ^ 149 ≤ r) (hr2 : r ≤ T) :
    0 ≤ f64 (r / S) ∧ f64 (r / S) ≤ 2 ∧ 0 ≤ f32 (f64 (r / S)) ∧ f32 (f64 (r / S)) ≤ 2 ∧
      |f32 (f64 (r / S)) - r / T| ≤ r / T / 2 ^ 20 + 1 / 2 ^ 150 := by
  have hr : 0 < r := lt_of_lt_of_le (by positivity) hr1
  have hS : 0 < S := lt_of_lt_of_le (mul_pos hT (by norm_num)) hS1
  have hw0 : 0 < r / T := div_pos hr hT
  have hw1 : r / T ≤ 1 := (div_le_one hT).mpr hr2
  have hq0 : 0 < r / S := div_pos hr hS
  have hqu : r / S ≤ r / T * (1 + 1 / 2 ^ 21) :=
    quotient_upper hT hr hS hS1 (by norm_num) (by norm_num)
  have hql : r / T * (1 - 1 / 2 ^ 21) ≤ r / S :=
    quotient_lower hT hr hS hS2 (by norm_num) (by norm_num)
  have hq2 : r / S ≤ 2 := by
    have h1 : r / T * (1 + 1 / 2 ^ 21) ≤ 1 * (1 + 1 / 2 ^ 21) :=
      mul_le_mul_of_nonneg_right hw1 (by norm_num)
    have h2 : (1 : K) * (1 + 1 / 2 ^ 21) ≤ 2 := by norm_num
    exact hqu.trans (h1.trans h2)
  have hqn : (1 : K) / 2 ^ 1022 ≤ r / S := by
    have h1 : (1 : K) / 2 ^ 308 ≤ r / T := by
      rw [le_div_iff₀ hT]
      have h5 : (1 : K) / 2 ^ 308 * T ≤ 1 / 2 ^ 308 * 2 ^ 159 :=
        mul_le_mul_of_nonneg_left hT2 (by positivity)
      have e : (1 : K) / 2 ^ 308 * 2 ^ 159 = 1 / 2 ^ 149 := by norm_num
      rw [e] at h5
      exact h5.trans hr1
    have h2 : (1 : K) / 2 ^ 308 * (1 - 1 / 2 ^ 21) ≤ r / T * (1 - 1 / 2 ^ 21) :=
      mul_le_mul_of_nonneg_right h1 (by norm_num)
    have h3 : (1 : K) / 2 ^ 1022 ≤ 1 / 2 ^ 308 * (1 - 1 / 2 ^ 21) := by norm_num
    exact h3.trans (h2.trans hql)
  have hd := f64_err (K := K) hqn
  rw [abs_le] at hd
  have hd0 : 0 ≤ f64 (r / S) := roundTo_nonneg 53 (-1022) (le_of_lt hq0)
  have hd2 : f64 (r / S) ≤ 2 := f64_le_two hq2
  have hx := f32_err_rel_gen (K := K) (f64 (r / S))
  rw [abs_of_nonneg hd0, abs_le] at hx
  have hx0 : 0 ≤ f32 (f64 (r / S)) := roundTo_nonneg 24 (-126) hd0
  have hx2 : f32 (f64 (r / S)) ≤ 2 := f32_le_two hd2
  refine ⟨hd0, hd2, hx0, hx2, ?_⟩
  have hdu : f64 (r / S) ≤ r / S * (1 + 1 / 2 ^ 53) := by linarith only [hd.2]
  have hdl : r / S * (1 - 1 / 2 ^ 53) ≤ f64 (r / S) := by linarith only [hd.1]
  have hxu : f32 (f64 (r / S)) ≤ f64 (r / S) * (1 + 1 / 2 ^ 24) + 1 / 2 ^ 150 := by
    linarith only [hx.2]
  have hxl : f64 (r / S) * (1 - 1 / 2 ^ 24) - 1 / 2 ^ 150 ≤ f32 (f64 (r / S)) := by
    linarith only [hx.1]
  have up := chain_upper hqu hdu hxu (le_of_lt hw0) (by norm_num) (by norm_num)
    (show (1 + 1 / 2 ^ 21) * (1 + 1 / 2 ^ 53) * (1 + 1 / 2 ^ 24) ≤ (1 : K) + 1 / 2 ^ 20 by
      norm_num)
  have lo := chain_lower hql hdl hxl (le_of_lt hw0) (by norm_num) (by norm_num)
    (show (1 : K) - 1 / 2 ^ 20 ≤ (1 - 1 / 2 ^ 21) * (1 - 1 / 2 ^ 53) * (1 - 1 / 2 ^ 24) by
      norm_num)
  have e1 : r / T * (1 - 1 / 2 ^ 20) = r / T - r / T / 2 ^ 20 := by ring
  have e2 : r / T * (1 + 1 / 2 ^ 20) = r / T + r / T / 2 ^ 20 := by ring
  rw [e1] at lo
  rw [e2] at up
  rw [abs_le]
  constructor
  · linarith only [lo]
  · linarith only [up]

theorem div64_toFloat_fin {K : Type} [LinearOrderedField K] [FloorRing K] {r S : K}
    (hS : 0 < S) (hq : 0 ≤ r / S) (hd : f64 (r / S) ≤ 2) (hx : f32 (f64 (r / S)) ≤ 2) :
    Fp.toFloat (Fp.div64 (Fp.fin r) (Fp.fin S)) = Fp.fin (f32 (f64 (r / S))) := by
  have h1 : Fp.div64 (Fp.fin r) (Fp.fin S) = Fp.fin (f64 (r / S)) := by
    show (if S = 0 then _ else Fp.round 53 (-1022) 1023 (r / S)) = _
    rw [if_neg (ne_of_gt hS)]
    exact round64_fin hq (lt_of_le_of_lt hd (by norm_num))
  rw [h1]
  show Fp.round 24 (-126) 127 (f64 (r / S)) = _
  exact round32_fin (roundTo_nonneg 53 (-1022) hq) (lt_of_le_of_lt hx (by norm_num))

/-- C2 (amended): for every input vector of size `n` with `1 ≤ n < 2^31`, every `float`
output scale and every library exponential, if every computed exponential
`r_i = exp((float)data[i] * scale)` is a positive finite `float` (no overflow to
infinity, no underflow to zero), then `CPUCalcSoftmax` writes the finite values
`result[i] = float(double(r_i / S))`, `S` being the sum of the `r_j` accumulated in
`double`; each `result[i]` is within `(r_i/T)/2^20 + 2^-150` of `r_i / T`, `T` being the
exact sum of the `r_j`; every entry is `≥ 0` and the entries sum to 1 within `1e-6`. -/
theorem CPUCalcSoftmax_distribution {K : Type} [LinearOrderedField K] [FloorRing K]
    (ex : Fp K → Fp K) (data : List Int) (scale : Binary32)
    (hsize : 1 ≤ data.length) (hlen : data.length < 2 ^ 31)
    (hexp : ∀ d ∈ data, ∃ r : K, 1 / 2 ^ 149 ≤ r ∧ r < 2 ^ 128 ∧
      ex (expArg scale d) = Fp.fin r) :
    ∃ e res : List K,
      data.map (fun d => ex (expArg scale d)) = e.map Fp.fin ∧
      CPUCalcSoftmax ex data scale = res.map Fp.fin ∧
      res = e.map (fun r => f32 (f64 (r / sumD 0 e))) ∧
      res.length = data.length ∧
      (∀ r ∈ e, |f32 (f64 (r / sumD 0 e)) - r / e.sum| ≤
        r / e.sum / 2 ^ 20 + 1 / 2 ^ 150) ∧
      (∀ x ∈ res, 0 ≤ x) ∧ |res.sum - 1| ≤ 1 / 10 ^ 6 := by
  obtain ⟨e, he, hel, heb⟩ := exists_exps ex scale data hexp
  have hpos : ∀ r ∈ e, (0 : K) < r := fun r hr =>
    lt_of_lt_of_le (by positivity) (heb r hr).1
  have hnn : ∀ r ∈ e, (0 : K) ≤ r := fun r hr => le_of_lt (hpos r hr)
  have hlb : ∀ r ∈ e, (1 : K) / 2 ^ 1022 ≤ r := fun r hr =>
    le_trans (by norm_num) (heb r hr).1
  have hn1 : 1 ≤ e.length := by rw [hel]; exact hsize
  have hn2 : (e.length : K) ≤ 2 ^ 31 := by
    have : e.length ≤ 2 ^ 31 := by rw [hel]; exact le_of_lt hlen
    exact_mod_cast this
  have hn0 : (0 : K) ≤ (e.length : K) := Nat.cast_nonneg _
  -- the exact sum
  have hT : 0 < e.sum := by
    obtain ⟨r, hr⟩ := List.exists_mem_of_length_pos (show 0 < e.length by omega)
    exact lt_of_lt_of_le (hpos r hr) (le_sum_of_mem e hnn r hr)
  have hT2 : e.sum ≤ 2 ^ 159 := by
    have h1 := sum_le_length_mul (2 ^ 128 : K) e (fun r hr => le_of_lt (heb r hr).2)
    have h2 : (e.length : K) * 2 ^ 128 ≤ 2 ^ 31 * 2 ^ 128 :=
      mul_le_mul_of_nonneg_right hn2 (by positivity)
    have h3 : (2 : K) ^ 31 * 2 ^ 128 = 2 ^ 159 := by norm_num
    rw [h3] at h2
    exact h1.trans h2
  -- the accumulated sum
  have hu : 2 * (e.length : K) * (1 / 2 ^ 53) ≤ 1 / 2 ^ 21 := by
    have h1 : 2 * (e.length : K) * (1 / 2 ^ 53) ≤ 2 * 2 ^ 31 * (1 / 2 ^ 53) :=
      mul_le_mul_of_nonneg_right (mul_le_mul_of_nonneg_left hn2 (by norm_num))
        (by positivity)
    have h2 : (2 : K) * 2 ^ 31 * (1 / 2 ^ 53) = 1 / 2 ^ 21 := by norm_num
    rw [h2] at h1
    exact h1
  have ha : (1 + 1 / 2 ^ 53 : K) ^ e.length ≤ 1 + 1 / 2 ^ 21 := by
    have h1 := one_add_pow_le (1 / 2 ^ 53 : K) (by positivity) e.length
      (hu.trans (by norm_num))
    linarith only [h1, hu]
  have hb : (1 : K) - 1 / 2 ^ 22 ≤ (1 - 1 / 2 ^ 53 : K) ^ e.length := by
    have h1 := one_sub_pow_ge (1 / 2 ^ 53 : K) (by positivity) (by norm_num) e.length
    have h2 : (e.length : K) * (1 / 2 ^ 53) ≤ 1 / 2 ^ 22 := by
      have h3 : (e.length : K) * (1 / 2 ^ 53) ≤ 2 ^ 31 * (1 / 2 ^ 53) :=
        mul_le_mul_of_nonneg_right hn2 (by positivity)
      have h4 : (2 : K) ^ 31 * (1 / 2 ^ 53) = 1 / 2 ^ 22 := by norm_num
      rw [h4] at h3
      exact h3
    linarith only [h1, h2]
  obtain ⟨hSl, hSu⟩ := sumD_bounds_gen (1 / 2 ^ 53 : K) (1 / 2 ^ 1022)
    (by positivity) (by norm_num) (by positivity)
    (fun x hx => by
      have := f64_err (K := K) hx
      calc |f64 x - x| ≤ x / 2 ^ 53 := this
        _ = x * (1 / 2 ^ 53) := by ring) e 0 (le_refl _) hlb
  rw [zero_add] at hSl hSu
  have hS1 : e.sum * (1 - 1 / 2 ^ 22) ≤ sumD 0 e :=
    le_trans (mul_le_mul_of_nonneg_left hb (le_of_lt hT)) hSl
  have hS2 : sumD 0 e ≤ e.sum * (1 + 1 / 2 ^ 21) :=
    le_trans hSu (mul_le_mul_of_nonneg_left ha (le_of_lt hT))
  have hS : 0 < sumD 0 e := lt_of_lt_of_le (mul_pos hT (by norm_num)) hS1
  have hov : (0 + e.sum) * (1 + 1 / 2 ^ 53 : K) ^ e.length < 2 ^ 1024 := by
    rw [zero_add]
    have h1 : e.sum * (1 + 1 / 2 ^ 53 : K) ^ e.length ≤ 2 ^ 159 * (1 + 1 / 2 ^ 21) :=
      mul_le_mul hT2 ha (pow_nonneg (by positivity) _) (by positivity)
    have h2 : (2 : K) ^ 159 * (1 + 1 / 2 ^ 21) < 2 ^ 1024 := by norm_num
    exact lt_of_le_of_lt h1 h2
  have hacc := softmaxAccum_eq ex scale data e [] 0 he (le_refl _) hlb hov
  -- every entry
  have hent : ∀ r ∈ e, 0 ≤ f64 (r / sumD 0 e) ∧ f64 (r / sumD 0 e) ≤ 2 ∧
      0 ≤ f32 (f64 (r / sumD 0 e)) ∧ f32 (f64 (r / sumD 0 e)) ≤ 2 ∧
      |f32 (f64 (r / sumD 0 e)) - r / e.sum| ≤ r / e.sum / 2 ^ 20 + 1 / 2 ^ 150 :=
    fun r hr => entry_bound hT hT2 hS1 hS2 (heb r hr).1 (le_sum_of_mem e hnn r hr)
  refine ⟨e, e.map (fun r => f32 (f64 (r / sumD 0 e))), he, ?_, rfl, ?_, ?_, ?_, ?_⟩
  · unfold CPUCalcSoftmax
    rw [hacc]
    simp only [List.nil_append, List.map_map]
    apply List.map_congr_left
    intro r hr
    obtain ⟨_, h2, _, h4, _⟩ := hent r hr
    exact div64_toFloat_fin hS (le_of_lt (div_pos (hpos r hr) hS)) h2 h4
  · rw [List.length_map, hel]
  · intro r hr
    exact (hent r hr).2.2.2.2
  · intro x hx
    obtain ⟨r, hr, rfl⟩ := List.mem_map.mp hx
    exact (hent r hr).2.2.1
  · have h1 := abs_sum_sub_le (fun r => f32 (f64 (r / sumD 0 e))) (fun r => r / e.sum)
      (fun r => r * (1 / (e.sum * 2 ^ 20)) + 1 / 2 ^ 150) e (fun r hr => by
        have := (hent r hr).2.2.2.2
        calc |f32 (f64 (r / sumD 0 e)) - r / e.sum|
            ≤ r / e.sum / 2 ^ 20 + 1 / 2 ^ 150 := this
          _ = r * (1 / (e.sum * 2 ^ 20)) + 1 / 2 ^ 150 := by
              field_simp)
    have h2 : (e.map (fun r => r / e.sum)).sum = 1 := by
      have h3 : e.map (fun r => r / e.sum) = e.map (fun r => r * (1 / e.sum) + 0) :=
        List.map_congr_left (fun r _ => by ring)
      rw [h3, sum_map_affine, mul_zero, add_zero, mul_one_div, div_self (ne_of_gt hT)]
    have h4 : (e.map (fun r => r * (1 / (e.sum * 2 ^ 20)) + 1 / 2 ^ 150)).sum =
        1 / 2 ^ 20 + (e.length : K) * (1 / 2 ^ 150) := by
      rw [sum_map_affine]
      congr 1
      field_simp
    rw [h2, h4] at h1
    have h5 : (e.length : K) * (1 / 2 ^ 150) ≤ 2 ^ 31 * (1 / 2 ^ 150) :=
      mul_le_mul_of_nonneg_right hn2 (by positivity)
    have h6 : (1 : K) / 2 ^ 20 + 2 ^ 31 * (1 / 2 ^ 150) ≤ 1 / 10 ^ 6 := by norm_num
    linarith only [h1, h5, h6]

theorem Fp.round_pinf {K : Type} [LinearOrderedField K] [FloorRing K] (p : Nat)
    (emin emax : Int) {x : K} (h : (2 : K) ^ (emax + 1) ≤ roundTo p emin x) :
    Fp.round p emin emax x = Fp.pinf := by
  unfold Fp.round
  rw [if_pos h]

theorem roundTo_tiny {K : Type} [LinearOrderedField K] [FloorRing K] (p : Nat) (emin : Int)
    {x : K} (h0 : 0 < x) (h : x < (2 : K) ^ (emin - p)) : roundTo p emin x = 0 := by
  have hlog : Int.log 2 |x| < emin - p := by
    rw [abs_of_pos h0]
    exact two_zpow_lt_iff.mp (lt_of_le_of_lt (log2_le h0) h)
  have hb : binade emin x = emin := by
    unfold binade
    exact max_eq_right (by omega)
  have hu : ulp p emin x = (2 : K) ^ (emin - p) * 2 := by
    unfold ulp
    rw [hb]
    have : emin - ((p : Int) - 1) = (emin - p) + 1 := by ring
    rw [this, two_zpow_add]
    simp
  have hpos := two_zpow_pos (K := K) (emin - p)
  have hn : roundHalfEven (x / ulp p emin x) = 0 := by
    apply roundHalfEven_eq_of_near
    rw [hu, Int.cast_zero, sub_zero, abs_of_pos (div_pos h0 (by linarith)),
      div_lt_iff₀ (by linarith)]
    linarith
  unfold roundTo
  rw [hn]
  simp

theorem exp_127_ge : (2 : ℝ) ^ 128 ≤ Real.exp 127 := by
  have h1 : Real.exp 127 = Real.exp 1 ^ 127 := by
    rw [← Real.exp_nat_mul]; norm_num
  have h2 : (27 / 10 : ℝ) ≤ Real.exp 1 := by
    have := Real.exp_one_gt_d9
    linarith
  have h3 : (27 / 10 : ℝ) ^ 127 ≤ Real.exp 1 ^ 127 := pow_le_pow_left₀ (by norm_num) h2 127
  have h4 : (2 : ℝ) ^ 128 ≤ (27 / 10) ^ 127 := by norm_num
  rw [h1]
  exact h4.trans h3

theorem exp_neg_128_lt : Real.exp (-128) < 1 / 2 ^ 150 := by
  have h1 : Real.exp 128 = Real.exp 1 ^ 128 := by
    rw [← Real.exp_nat_mul]; norm_num
  have h2 : (27 / 10 : ℝ) ≤ Real.exp 1 := by
    have := Real.exp_one_gt_d9
    linarith
  have h3 : (27 / 10 : ℝ) ^ 128 ≤ Real.exp 1 ^ 128 := pow_le_pow_left₀ (by norm_num) h2 128
  have h4 : (2 : ℝ) ^ 150 < (27 / 10) ^ 128 := by norm_num
  have h5 : (2 : ℝ) ^ 150 < Real.exp 128 := by rw [h1]; exact lt_of_lt_of_le h4 h3
  rw [Real.exp_neg, one_div]
  exact inv_strictAnti₀ (by positivity) h5

theorem one_val {K : Type} [LinearOrderedField K] : (Binary32.one.val : K) = 1 := by
  simp [Binary32.val, Binary32.one]

theorem expArg_one_int {K : Type} [LinearOrderedField K] [FloorRing K] (d : Int)
    (hd : |d| < 2 ^ 24) : expArg (K := K) Binary32.one d = Fp.fin (d : K) := by
  unfold expArg
  rw [one_val, mul_one]
  have hr : roundTo 24 (-126) (d : K) = (d : K) := by
    have := roundTo_repr (K := K) 24 (-126) d 0 hd (by decide)
    simpa using this
  have hb : |(d : K)| < 2 ^ 24 := by exact_mod_cast hd
  rw [abs_lt] at hb
  have h128 : (2 : K) ^ 24 < 2 ^ 128 := by norm_num
  rw [Fp.round_fin 24 (-126) 127 (by rw [hr, two_zpow_128]; linarith)
    (by rw [hr, two_zpow_128]; linarith), hr]

theorem expf_exp_127 : expf Real.exp (Fp.fin (127 : ℝ)) = Fp.pinf := by
  show Fp.round 24 (-126) 127 (Real.exp 127) = Fp.pinf
  apply Fp.round_pinf
  have h1 := roundTo_mono (K := ℝ) 24 (-126) (by decide)
    (show (2 : ℝ) ^ ((127 : Int) + 1) ≤ Real.exp 127 by rw [two_zpow_128]; exact exp_127_ge)
  rw [roundTo_two_zpow 24 (-126) (by decide) _ (by decide)] at h1
  exact h1

theorem round32_zero {K : Type} [LinearOrderedField K] [FloorRing K] :
    Fp.round 24 (-126) 127 (0 : K) = Fp.fin 0 := by
  have h := round32_fin (K := K) (x := 0) (le_refl _)
    (by rw [f32, roundTo_zero]; positivity)
  rw [h, f32, roundTo_zero]

theorem round64_zero {K : Type} [LinearOrderedField K] [FloorRing K] :
    Fp.round 53 (-1022) 1023 (0 : K) = Fp.fin 0 := by
  have h := round64_fin (K := K) (x := 0) (le_refl _)
    (by rw [f64, roundTo_zero]; positivity)
  rw [h, f64, roundTo_zero]

theorem round32_one {K : Type} [LinearOrderedField K] [FloorRing K] :
    Fp.round 24 (-126) 127 (1 : K) = Fp.fin 1 := by
  have e : f32 (1 : K) = 1 := by
    have h := roundTo_two_zpow (K := K) 24 (-126) (by decide) 0 (by decide)
    simpa [f32] using h
  have h := round32_fin (K := K) (x := 1) (by norm_num) (by rw [e]; norm_num)
  rw [h, e]

theorem expf_exp_zero : expf Real.exp (Fp.fin (0 : ℝ)) = Fp.fin 1 := by
  show Fp.round 24 (-126) 127 (Real.exp 0) = Fp.fin 1
  rw [Real.exp_zero]
  exact round32_one

theorem expf_exp_neg_128 : expf Real.exp (Fp.fin (-128 : ℝ)) = Fp.fin 0 := by
  show Fp.round 24 (-126) 127 (Real.exp (-128)) = Fp.fin 0
  have h : roundTo 24 (-126) (Real.exp (-128)) = 0 := by
    apply roundTo_tiny 24 (-126) (Real.exp_pos _)
    have e : (2 : ℝ) ^ ((-126 : Int) - ((24 : Nat) : Int)) = 1 / 2 ^ 150 := by
      have : (-126 : Int) - ((24 : Nat) : Int) = -((150 : Nat) : Int) := by norm_num
      rw [this, zpow_neg, one_div]; norm_cast
    rw [e]
    exact exp_neg_128_lt
  rw [Fp.round_fin 24 (-126) 127 (by rw [h, two_zpow_128]; norm_num)
    (by rw [h, two_zpow_128]; norm_num), h]

/-- C2, as stated, fails on the `float` computation. For the codes `[127, 0]` at scale
1, `exp(127)` overflows to `+inf`, the sum is `+inf` and the result is `[NaN, 0]`; for
`[-128, -128]` both exponentials underflow to 0, the sum is 0 and the result is
`[NaN, NaN]`. -/
theorem CPUCalcSoftmax_nan :
    CPUCalcSoftmax (expf Real.exp) [127, 0] Binary32.one = [Fp.nan, Fp.fin 0] ∧
      CPUCalcSoftmax (expf Real.exp) [-128, -128] Binary32.one = [Fp.nan, Fp.nan] ∧
      ¬ (∀ (data : List Int) (scale : Binary32), 1 ≤ data.length →
          (∀ d ∈ data, -128 ≤ d ∧ d ≤ 127) →
          ∃ res : List ℝ, CPUCalcSoftmax (expf Real.exp) data scale = res.map Fp.fin ∧
            (∀ x ∈ res, 0 ≤ x) ∧ |res.sum - 1| ≤ 1 / 10 ^ 6) := by
  have a127 : expArg (K := ℝ) Binary32.one 127 = Fp.fin (127 : ℝ) := by
    have := expArg_one_int (K := ℝ) 127 (by decide)
    simpa using this
  have a0 : expArg (K := ℝ) Binary32.one 0 = Fp.fin (0 : ℝ) := by
    have := expArg_one_int (K := ℝ) 0 (by decide)
    simpa using this
  have am : expArg (K := ℝ) Binary32.one (-128) = Fp.fin (-128 : ℝ) := by
    have := expArg_one_int (K := ℝ) (-128) (by decide)
    simpa using this
  have h1 : CPUCalcSoftmax (expf Real.exp) [127, 0] Binary32.one = [Fp.nan, Fp.fin 0] := by
    simp only [CPUCalcSoftmax, softmaxAccum, a127, a0, expf_exp_127, expf_exp_zero,
      Fp.add64, List.nil_append, List.cons_append, List.map_cons, List.map_nil, Fp.div64,
      Fp.toFloat, round32_zero]
  have h2 : CPUCalcSoftmax (expf Real.exp) [-128, -128] Binary32.one =
      [Fp.nan, Fp.nan] := by
    simp only [CPUCalcSoftmax, softmaxAccum, am, expf_exp_neg_128, Fp.add64, add_zero,
      round64_zero, List.nil_append, List.cons_append, List.map_cons, List.map_nil,
      Fp.div64, if_true, Fp.toFloat]
  refine ⟨h1, h2, ?_⟩
  intro hall
  obtain ⟨res, hres, _, _⟩ := hall [127, 0] Binary32.one (by simp) (by
    intro d hd
    simp only [List.mem_cons, List.mem_singleton, List.not_mem_nil, or_false] at hd
    rcases hd with rfl | rfl <;> decide)
  rw [h1] at hres
  match res, hres with
  | [], h => simp at h
  | x :: xs, h =>
    simp only [List.map_cons, List.cons.injEq] at h
    exact absurd h.1 (by simp)

theorem expArg_exact {K : Type} [LinearOrderedField K] [FloorRing K] (scale : Binary32)
    (d : Int) (h : |d * scale.m| < 2 ^ 24) :
    expArg (K := K) scale d = Fp.fin ((d : K) * scale.val) := by
  have e : (d : K) * scale.val = ((d * scale.m : Int) : K) * (2 : K) ^ scale.e := by
    unfold Binary32.val
    push_cast
    ring
  have hr : roundTo 24 (-126) ((d : K) * scale.val) = (d : K) * scale.val := by
    rw [e]
    exact roundTo_repr 24 (-126) _ _ h (by have := scale.he.1; omega)
  have hb : |(d : K) * scale.val| < 2 ^ 128 := by
    rw [e, abs_mul, abs_of_pos (two_zpow_pos (K := K) scale.e)]
    have h1 : |((d * scale.m : Int) : K)| < 2 ^ 24 := by exact_mod_cast h
    have h2 : (2 : K) ^ scale.e ≤ (2 : K) ^ (104 : Int) := two_zpow_le scale.he.2
    have h3 : (2 : K) ^ (104 : Int) = 2 ^ 104 := by
      have : (104 : Int) = ((104 : Nat) : Int) := rfl
      rw [this, zpow_natCast]
    rw [h3] at h2
    have h4 : |((d * scale.m : Int) : K)| * (2 : K) ^ scale.e < 2 ^ 24 * 2 ^ 104 :=
      mul_lt_mul h1 h2 (two_zpow_pos _) (by positivity)
    have h5 : (2 : K) ^ 24 * 2 ^ 104 = 2 ^ 128 := by norm_num
    rw [h5] at h4
    exact h4
  rw [abs_lt] at hb
  unfold expArg
  rw [Fp.round_fin 24 (-126) 127 (by rw [hr, two_zpow_128]; exact hb.1)
    (by rw [hr, two_zpow_128]; exact hb.2), hr]

theorem expf_exp_finite {a : ℝ} (ha : |a| ≤ 1) :
    ∃ r : ℝ, 1 / 2 ^ 149 ≤ r ∧ r < 2 ^ 128 ∧ expf Real.exp (Fp.fin a) = Fp.fin r := by
  rw [abs_le] at ha
  have hu : Real.exp a ≤ 4 := by
    have h1 : Real.exp a ≤ Real.exp 1 := Real.exp_le_exp.mpr ha.2
    have h2 := Real.exp_one_lt_d9
    linarith
  have hl : (1 : ℝ) / 4 ≤ Real.exp a := by
    have h1 : Real.exp (-1) ≤ Real.exp a := Real.exp_le_exp.mpr ha.1
    have h2 : (1 : ℝ) / 4 ≤ Real.exp (-1) := by
      rw [Real.exp_neg, one_div]
      have h3 := Real.exp_one_lt_d9
      exact inv_anti₀ (Real.exp_pos 1) (by linarith)
    linarith
  have e4 : f32 (4 : ℝ) = 4 := by
    have h := roundTo_two_zpow (K := ℝ) 24 (-126) (by decide) 2 (by decide)
    have e : (2 : ℝ) ^ (2 : Int) = 4 := by norm_num
    rw [e] at h
    exact h
  have e14 : f32 ((1 : ℝ) / 4) = 1 / 4 := by
    have h := roundTo_two_zpow (K := ℝ) 24 (-126) (by decide) (-2) (by decide)
    have e : (2 : ℝ) ^ (-2 : Int) = 1 / 4 := by norm_num
    rw [e] at h
    exact h
  have fu : f32 (Real.exp a) ≤ 4 := by
    have := roundTo_mono (K := ℝ) 24 (-126) (by decide) hu
    rw [show roundTo 24 (-126) (4 : ℝ) = 4 from e4] at this
    exact this
  have fl : (1 : ℝ) / 4 ≤ f32 (Real.exp a) := by
    have := roundTo_mono (K := ℝ) 24 (-126) (by decide) hl
    rw [show roundTo 24 (-126) ((1 : ℝ) / 4) = 1 / 4 from e14] at this
    exact this
  refine ⟨f32 (Real.exp a), le_trans (by norm_num) fl, lt_of_le_of_lt fu (by norm_num), ?_⟩
  show Fp.round 24 (-126) 127 (Real.exp a) = _
  exact round32_fin (le_of_lt (Real.exp_pos a)) (lt_of_le_of_lt fu (by norm_num))

theorem quarter_val {K : Type} [LinearOrderedField K] : (Binary32.quarter.val : K) = 1 / 4 := by
  have e : (2 : K) ^ (-2 : Int) = 1 / 4 := by
    have : (-2 : Int) = -((2 : Nat) : Int) := rfl
    rw [this, zpow_neg, zpow_natCast]
    norm_num
  simp only [Binary32.val, Binary32.quarter, Int.cast_one, one_mul]
  exact e

theorem quarter_exps_finite :
    ∀ d ∈ [(3 : Int), -1, 0], ∃ r : ℝ, 1 / 2 ^ 149 ≤ r ∧ r < 2 ^ 128 ∧
      expf Real.exp (expArg Binary32.quarter d) = Fp.fin r := by
  intro d hd
  simp only [List.mem_cons, List.mem_singleton, List.not_mem_nil, or_false] at hd
  have hb : (-4 : Int) ≤ d ∧ d ≤ 4 := by rcases hd with rfl | rfl | rfl <;> decide
  have hm : |d * Binary32.quarter.m| < 2 ^ 24 := by
    show |d * 1| < 2 ^ 24
    rw [mul_one, abs_lt]
    constructor <;> omega
  rw [expArg_exact Binary32.quarter d hm, quarter_val]
  apply expf_exp_finite
  have h1 : ((-4 : Int) : ℝ) ≤ (d : ℝ) := by exact_mod_cast hb.1
  have h2 : (d : ℝ) ≤ ((4 : Int) : ℝ) := by exact_mod_cast hb.2
  push_cast at h1 h2
  rw [abs_le]
  constructor <;> linarith

/-- Witness of `CPUCalcSoftmax_distribution`: the codes `[3, -1, 0]` at scale 1/4 with
the exponential rounded to `float`. -/
theorem CPUCalcSoftmax_distribution_witness :
    (1 ≤ [(3 : Int), -1, 0].length ∧ [(3 : Int), -1, 0].length < 2 ^ 31 ∧
      ∀ d ∈ [(3 : Int), -1, 0], ∃ r : ℝ, 1 / 2 ^ 149 ≤ r ∧ r < 2 ^ 128 ∧
        expf Real.exp (expArg Binary32.quarter d) = Fp.fin r) ∧
      ∃ e res : List ℝ,
        [(3 : Int), -1, 0].map (fun d => expf Real.exp (expArg Binary32.quarter d)) =
          e.map Fp.fin ∧
        CPUCalcSoftmax (expf Real.exp) [3, -1, 0] Binary32.quarter = res.map Fp.fin ∧
        res = e.map (fun r => f32 (f64 (r / sumD 0 e))) ∧
        res.length = [(3 : Int), -1, 0].length ∧
        (∀ r ∈ e, |f32 (f64 (r / sumD 0 e)) - r / e.sum| ≤
          r / e.sum / 2 ^ 20 + 1 / 2 ^ 150) ∧
        (∀ x ∈ res, 0 ≤ x) ∧ |res.sum - 1| ≤ 1 / 10 ^ 6 :=
  ⟨⟨by decide, by decide, quarter_exps_finite⟩,
    CPUCalcSoftmax_distribution (expf Real.exp) [3, -1, 0] Binary32.quarter (by decide)
      (by decide) quarter_exps_finite⟩

/-! ## Theorems: top-K -/

theorem pairLt_iff {α : Type} [LinearOrder α] (a b : α × Nat) :
    pairLt a b = true ↔ a.1 < b.1 ∨ (a.1 = b.1 ∧ a.2 < b.2) := by
  unfold pairLt
  simp only [Bool.or_eq_true, Bool.and_eq_true, Bool.not_eq_true', decide_eq_true_eq,
    decide_eq_false_iff_not, not_lt]
  constructor
  · rintro (h | ⟨h1, h2⟩)
    · exact Or.inl h
    · rcases lt_or_eq_of_le h1 with h3 | h3
      · exact Or.inl h3
      · exact Or.inr ⟨h3, h2⟩
  · rintro (h | ⟨h1, h2⟩)
    · exact Or.inl h
    · exact Or.inr ⟨le_of_eq h1, h2⟩

theorem pairLt_trans {α : Type} [LinearOrder α] {a b c : α × Nat}
    (h1 : pairLt a b = true) (h2 : pairLt b c = true) : pairLt a c = true := by
  rw [pairLt_iff] at *
  rcases h1 with h1 | ⟨e1, l1⟩
  · rcases h2 with h2 | ⟨e2, _⟩
    · exact Or.inl (lt_trans h1 h2)
    · exact Or.inl (e2 ▸ h1)
  · rcases h2 with h2 | ⟨e2, l2⟩
    · exact Or.inl (e1 ▸ h2)
    · exact Or.inr ⟨e1.trans e2, lt_trans l1 l2⟩

theorem pairLt_of_not {α : Type} [LinearOrder α] {a b : α × Nat}
    (h : pairLt a b = false) (hne : a ≠ b) : pairLt b a = true := by
  have h' : ¬ (a.1 < b.1 ∨ (a.1 = b.1 ∧ a.2 < b.2)) := by
    rw [← pairLt_iff]; simp [h]
  rw [pairLt_iff]
  push_neg at h'
  obtain ⟨h1, h2⟩ := h'
  rcases lt_or_eq_of_le h1 with h3 | h3
  · exact Or.inl h3
  · right
    refine ⟨h3, ?_⟩
    have h4 := h2 h3.symm
    rcases lt_or_eq_of_le h4 with h5 | h5
    · exact h5
    · exfalso; apply hne
      exact Prod.ext h3.symm h5.symm

theorem pairLt_irrefl {α : Type} [LinearOrder α] (a : α × Nat) : pairLt a a = false := by
  have : ¬ (pairLt a a = true) := by
    rw [pairLt_iff]; simp
  simpa using this

theorem pqTop_eq_none {α : Type} [LinearOrder α] :
    ∀ {q : List (α × Nat)}, pqTop q = none → q = []
  | [], _ => rfl
  | x :: xs, h => by
    unfold pqTop at h
    split at h
    · simp at h
    · split at h <;> simp at h

theorem pqTop_spec {α : Type} [LinearOrder α] :
    ∀ {q : List (α × Nat)} {m : α × Nat}, pqTop q = some m →
      m ∈ q ∧ ∀ x ∈ q, pairLt m x = false
  | [], m, h => by simp [pqTop] at h
  | x :: xs, m, h => by
    unfold pqTop at h
    split at h
    · rename_i hn
      have hxs := pqTop_eq_none hn
      subst hxs
      simp only [Option.some.injEq] at h
      subst h
      simp [pairLt_irrefl]
    · rename_i m' hm'
      obtain ⟨hmem, hmax⟩ := pqTop_spec hm'
      by_cases hlt : pairLt m' x = true
      · rw [if_pos hlt] at h
        simp only [Option.some.injEq] at h
        subst h
        refine ⟨List.mem_cons_self _ _, ?_⟩
        intro y hy
        rcases List.mem_cons.mp hy with e | hy'
        · subst e; exact pairLt_irrefl _
        · by_contra hc
          have hc' : pairLt x y = true := by simpa using hc
          have := pairLt_trans hlt hc'
          rw [hmax y hy'] at this
          exact Bool.false_ne_true this
      · rw [if_neg hlt] at h
        simp only [Option.some.injEq] at h
        subst h
        refine ⟨List.mem_cons_of_mem _ hmem, ?_⟩
        intro y hy
        rcases List.mem_cons.mp hy with e | hy'
        · subst e; simpa using hlt
        · exact hmax y hy'

theorem pqTop_of_ne_nil {α : Type} [LinearOrder α] {q : List (α × Nat)} (h : q ≠ []) :
    ∃ m, pqTop q = some m := by
  cases hq : pqTop q with
  | none => exact absurd (pqTop_eq_none hq) h
  | some m => exact ⟨m, rfl⟩

theorem drain_length {α : Type} [LinearOrder α] :
    ∀ (cnt : Nat) (q : List (α × Nat)), cnt ≤ q.length → (drain cnt q).length = cnt
  | 0, _, _ => rfl
  | cnt + 1, q, h => by
    have hne : q ≠ [] := by intro e; subst e; simp at h
    obtain ⟨m, hm⟩ := pqTop_of_ne_nil hne
    have hmem := (pqTop_spec hm).1
    unfold drain
    rw [hm]
    simp only [List.length_cons, Nat.add_right_cancel_iff]
    apply drain_length
    rw [List.length_erase_of_mem hmem]
    omega

theorem drain_subset {α : Type} [LinearOrder α] :
    ∀ (cnt : Nat) (q : List (α × Nat)), ∀ x ∈ drain cnt q, x ∈ q
  | 0, _, x, hx => by simp [drain] at hx
  | cnt + 1, q, x, hx => by
    unfold drain at hx
    split at hx
    · simp at hx
    · rename_i m hm
      rcases List.mem_cons.mp hx with e | hx'
      · subst e; exact (pqTop_spec hm).1
      · exact List.mem_of_mem_erase (drain_subset cnt _ x hx')

theorem drain_take {α : Type} [LinearOrder α] :
    ∀ (k n : Nat) (q : List (α × Nat)), k ≤ n → (drain n q).take k = drain k q
  | 0, _, _, _ => by simp [drain]
  | k + 1, 0, _, h => by omega
  | k + 1, n + 1, q, h => by
    unfold drain
    split
    · simp
    · simp only [List.take_succ_cons, List.cons.injEq, true_and]
      exact drain_take k n _ (by omega)

theorem cons_erase_perm {β : Type} [BEq β] [LawfulBEq β] {a : β} :
    ∀ {l : List β}, a ∈ l → (a :: l.erase a).Perm l
  | [], h => by simp at h
  | x :: xs, h => by
    rw [List.erase_cons]
    by_cases e : (x == a) = true
    · have e' : x = a := eq_of_beq e
      subst e'
      simp
    · rw [if_neg e]
      have hx : a ∈ xs := by
        rcases List.mem_cons.mp h with h1 | h1
        · exfalso; apply e; rw [h1]; exact beq_self_eq_true x
        · exact h1
      exact (List.Perm.swap x a _).trans ((cons_erase_perm hx).cons x)

theorem drain_perm {α : Type} [LinearOrder α] :
    ∀ (n : Nat) (q : List (α × Nat)), q.length = n → (drain n q).Perm q
  | 0, q, h => by
    have : q = [] := List.length_eq_zero.mp h
    subst this
    simp [drain]
  | n + 1, q, h => by
    have hne : q ≠ [] := by intro e; subst e; simp at h
    obtain ⟨m, hm⟩ := pqTop_of_ne_nil hne
    have hmem := (pqTop_spec hm).1
    unfold drain
    rw [hm]
    have hl : (q.erase m).length = n := by
      rw [List.length_erase_of_mem hmem]; omega
    exact ((drain_perm n _ hl).cons m).trans (cons_erase_perm hmem)

theorem drain_sorted {α : Type} [LinearOrder α] :
    ∀ (cnt : Nat) (q : List (α × Nat)), q.Nodup →
      (drain cnt q).Pairwise (fun x y => pairLt y x = true)
  | 0, _, _ => by simp [drain]
  | cnt + 1, q, hnd => by
    unfold drain
    split
    · simp
    · rename_i m hm
      obtain ⟨_, hmax⟩ := pqTop_spec hm
      rw [List.pairwise_cons]
      refine ⟨?_, drain_sorted cnt _ (hnd.erase m)⟩
      intro y hy
      have hy' := drain_subset cnt _ y hy
      have hyq : y ∈ q := List.mem_of_mem_erase hy'
      have hne : m ≠ y := by
        intro e; subst e
        exact (List.Nodup.not_mem_erase hnd) hy'
      exact pairLt_of_not (hmax y hyq) hne

theorem pushAll_spec {α : Type} (d : List α) :
    ∀ (cnt i : Nat), i + cnt ≤ d.length →
      pushAll d cnt i = some (((d.drop i).take cnt).zip (List.range' i cnt))
  | 0, i, _ => by simp [pushAll]
  | cnt + 1, i, h => by
    have hi : i < d.length := by omega
    unfold pushAll
    rw [pushAll_spec d cnt (i + 1) (by omega), List.getElem?_eq_getElem hi]
    simp only [List.range'_succ]
    rw [List.drop_eq_getElem_cons hi]
    simp only [List.take_succ_cons, List.zip_cons_cons]

theorem pushAll_full {α : Type} (d : List α) :
    pushAll d d.length 0 = some (d.zip (List.range d.length)) := by
  rw [pushAll_spec d d.length 0 (by omega)]
  simp [List.range_eq_range']

theorem pairs_valid {α : Type} (d : List α) :
    ∀ x ∈ d.zip (List.range d.length), d[x.2]? = some x.1 ∧ x.2 < d.length := by
  intro x hx
  obtain ⟨i, hi, e⟩ := List.mem_iff_getElem.mp hx
  have hi' : i < d.length := by
    simp only [List.length_zip, List.length_range, Nat.min_self] at hi
    exact hi
  subst e
  simp [List.getElem_zip, List.getElem?_eq_getElem hi', hi']

theorem pairs_nodup {α : Type} (d : List α) : (d.zip (List.range d.length)).Nodup := by
  apply List.Nodup.of_map Prod.snd
  rw [List.map_snd_zip]
  · exact List.nodup_range _
  · simp

theorem pairs_length {α : Type} (d : List α) :
    (d.zip (List.range d.length)).length = d.length := by
  simp

theorem reportLoop_eq {α : Type} [LinearOrder α] (d : List α) (vkinds : List String) :
    ∀ (cnt i : Nat) (q : List (α × Nat)), cnt ≤ q.length →
      (∀ x ∈ q, d[x.2]? = some x.1 ∧ x.2 < vkinds.length) →
      reportLoop d vkinds cnt i q = some (labelled vkinds i (drain cnt q))
  | 0, _, _, _, _ => by simp [reportLoop, drain, labelled]
  | cnt + 1, i, q, hlen, hval => by
    have hne : q ≠ [] := by intro e; subst e; simp at hlen
    obtain ⟨m, hm⟩ := pqTop_of_ne_nil hne
    have hmem := (pqTop_spec hm).1
    obtain ⟨hd, hv⟩ := hval m hmem
    have hl : cnt ≤ (q.erase m).length := by
      rw [List.length_erase_of_mem hmem]; omega
    have hval' : ∀ x ∈ q.erase m, d[x.2]? = some x.1 ∧ x.2 < vkinds.length :=
      fun x hx => hval x (List.mem_of_mem_erase hx)
    unfold reportLoop drain
    rw [hm]
    simp only [hd, List.getElem?_eq_getElem hv, reportLoop_eq d vkinds cnt (i + 1) _ hl hval',
      labelled]
    simp [List.getD_eq_getElem?_getD, List.getElem?_eq_getElem hv]

theorem labelled_length {α : Type} (vkinds : List String) :
    ∀ (l : List (α × Nat)) (i : Nat), (labelled vkinds i l).length = l.length
  | [], _ => rfl
  | _ :: xs, i => by simp [labelled, labelled_length vkinds xs (i + 1)]

theorem labelled_ranks {α : Type} (vkinds : List String) :
    ∀ (l : List (α × Nat)) (i : Nat),
      (labelled vkinds i l).map (fun e => e.1) = List.range' i l.length
  | [], _ => rfl
  | _ :: xs, i => by
    simp [labelled, labelled_ranks vkinds xs (i + 1), List.range'_succ]

theorem labelled_probs {α : Type} (vkinds : List String) :
    ∀ (l : List (α × Nat)) (i : Nat),
      (labelled vkinds i l).map (fun e => e.2.1) = l.map (fun x => x.1)
  | [], _ => rfl
  | _ :: xs, i => by simp [labelled, labelled_probs vkinds xs (i + 1)]

theorem labelled_getElem? {α : Type} (vkinds : List String) :
    ∀ (l : List (α × Nat)) (i r : Nat),
      (labelled vkinds i l)[r]? = (l[r]?).map (fun x => (i + r, x.1, vkinds.getD x.2 ""))
  | [], _, _ => by simp [labelled]
  | _ :: _, _, 0 => by simp [labelled]
  | _ :: xs, i, r + 1 => by
    simp only [labelled, List.getElem?_cons_succ, labelled_getElem? vkinds xs (i + 1) r]
    have : i + 1 + r = i + (r + 1) := by omega
    rw [this]

theorem TopK_eq {α : Type} [LinearOrder α] (d : List α) (k : Nat) (vkinds : List String)
    (hk : 0 < k) (hkn : k ≤ d.length) (hv : d.length ≤ vkinds.length) :
    TopK d d.length k vkinds =
      some (labelled vkinds 0 ((drain d.length (d.zip (List.range d.length))).take k)) := by
  unfold TopK
  rw [if_pos ⟨lt_of_lt_of_le hk hkn, hk⟩, pushAll_full]
  simp only
  rw [reportLoop_eq d vkinds k 0 _ (by rw [pairs_length]; exact hkn)
    (fun x hx => ⟨(pairs_valid d x hx).1, lt_of_lt_of_le (pairs_valid d x hx).2 hv⟩)]
  rw [drain_take k d.length _ hkn]

theorem sorted_lex {α : Type} [LinearOrder α] {l : List (α × Nat)}
    (h : l.Pairwise (fun x y => pairLt y x = true)) :
    l.Pairwise (fun x y => y.1 < x.1 ∨ (y.1 = x.1 ∧ y.2 < x.2)) :=
  h.imp (fun hxy => (pairLt_iff _ _).mp hxy)

theorem sorted_probs {α : Type} [LinearOrder α] {l : List (α × Nat)}
    (h : l.Pairwise (fun x y => pairLt y x = true)) :
    (l.map (fun x => x.1)).Pairwise (fun p p' => p' ≤ p) := by
  rw [List.pairwise_map]
  apply h.imp
  intro x y hxy
  rcases (pairLt_iff _ _).mp hxy with h1 | ⟨h1, _⟩
  · exact le_of_lt h1
  · exact le_of_eq h1

/-- C3, as stated, fails. On the probability vector `[1/2, 1/2]` with `k = 2`, `TopK`
reports the probabilities `1/2, 1/2`, which are not strictly descending; with `k = 2`
on a vector of size 1 the second `q.top()` is taken on an empty queue, so no second
entry is defined; and with a label table shorter than the vector the name of the top
class is read past the end of the table. -/
theorem TopK_not_strict :
    TopK [(1 : ℚ) / 2, 1 / 2] 2 2 ["a", "b"] = some [(0, 1 / 2, "b"), (1, 1 / 2, "a")] ∧
      TopK [(1 : ℚ)] 1 2 ["a", "b"] = none ∧
      TopK [(1 : ℚ) / 4, 3 / 4] 2 1 ["a"] = none ∧
      ¬ (∀ (d : List ℚ) (k : Nat) (vkinds : List String), 0 < d.length → 0 < k →
          d.length ≤ vkinds.length →
          ∃ out, TopK d d.length k vkinds = some out ∧ out.length = k ∧
            (out.map (fun e => e.2.1)).Pairwise (fun p p' => p' < p)) := by
  have h1 : TopK [(1 : ℚ) / 2, 1 / 2] 2 2 ["a", "b"] =
      some [(0, 1 / 2, "b"), (1, 1 / 2, "a")] := by
    simp [TopK, pushAll, reportLoop, pqTop, pairLt]
  have h2 : TopK [(1 : ℚ)] 1 2 ["a", "b"] = none := by
    simp [TopK, pushAll, reportLoop, pqTop, pairLt]
  have h3 : TopK [(1 : ℚ) / 4, 3 / 4] 2 1 ["a"] = none := by
    norm_num [TopK, pushAll, reportLoop, pqTop, pairLt]
  refine ⟨h1, h2, h3, ?_⟩
  intro hall
  obtain ⟨out, ho, _, hs⟩ := hall [(1 : ℚ) / 2, 1 / 2] 2 ["a", "b"] (by simp) (by decide)
    (by simp)
  have ho' : TopK [(1 : ℚ) / 2, 1 / 2] 2 2 ["a", "b"] = some out := ho
  rw [h1] at ho'
  simp only [Option.some.injEq] at ho'
  subst ho'
  simp at hs

/-- C3 (amended): for every score vector `d` and every `k` with `0 < k ≤ size` (and a
label table of at least `size` names), `TopK` reports exactly `k` entries with ranks
`0..k-1`, and the reported probabilities are sorted descending: each reported
probability is greater than or equal to every later one. -/
theorem TopK_reports_k_sorted {α : Type} [LinearOrder α] (d : List α) (k : Nat)
    (vkinds : List String) (hk : 0 < k) (hkn : k ≤ d.length)
    (hv : d.length ≤ vkinds.length) :
    ∃ out, TopK d d.length k vkinds = some out ∧ out.length = k ∧
      out.map (fun e => e.1) = List.range k ∧
      (out.map (fun e => e.2.1)).Pairwise (fun p p' => p' ≤ p) := by
  refine ⟨_, TopK_eq d k vkinds hk hkn hv, ?_, ?_, ?_⟩
  · rw [labelled_length, drain_take k _ _ hkn, drain_length]
    rw [pairs_length]; exact hkn
  · rw [labelled_ranks, drain_take k _ _ hkn, drain_length _ _ (by rw [pairs_length]; exact hkn),
      List.range_eq_range']
  · rw [labelled_probs, drain_take k _ _ hkn]
    exact sorted_probs (drain_sorted k _ (pairs_nodup d))

/-- Witness of `TopK_reports_k_sorted`: three scores, two of them equal, `k = 2`. -/
theorem TopK_reports_k_sorted_witness :
    (0 < 2 ∧ 2 ≤ [(1 : ℚ) / 4, 1 / 2, 1 / 4].length ∧
      [(1 : ℚ) / 4, 1 / 2, 1 / 4].length ≤ ["a", "b", "c"].length) ∧
      ∃ out, TopK [(1 : ℚ) / 4, 1 / 2, 1 / 4] [(1 : ℚ) / 4, 1 / 2, 1 / 4].length 2
          ["a", "b", "c"] = some out ∧ out.length = 2 ∧
        out.map (fun e => e.1) = List.range 2 ∧
        (out.map (fun e => e.2.1)).Pairwise (fun p p' => p' ≤ p) :=
  ⟨⟨by decide, by simp, by simp⟩,
    TopK_reports_k_sorted [(1 : ℚ) / 4, 1 / 2, 1 / 4] 2 ["a", "b", "c"] (by decide) (by simp)
      (by simp)⟩

/-- C10: for every score vector `d` of size `n`, every `k` with `0 < k ≤ n` and a
label table of at least `n` names, there is a list `l` that is a permutation of the
pairs `(d[0],0), ..., (d[n-1],n-1)` sorted strictly descending in the lexicographic
order on `(score, index)`, and the `i`-th line `TopK` reports (`i < k`) is
`(i, d[j], vkinds[j])` where `(d[j], j)` is the `i`-th element of `l`. Hence between
classes with equal score the larger class index is reported first; the output is a
function of `d`, `k` and the label table. -/
theorem TopK_lex_order {α : Type} [LinearOrder α] (d : List α) (k : Nat)
    (vkinds : List String) (hk : 0 < k) (hkn : k ≤ d.length)
    (hv : d.length ≤ vkinds.length) :
    ∃ l : List (α × Nat),
      l.Perm (d.zip (List.range d.length)) ∧
      l.Pairwise (fun x y => y.1 < x.1 ∨ (y.1 = x.1 ∧ y.2 < x.2)) ∧
      ∃ out, TopK d d.length k vkinds = some out ∧ out.length = k ∧
        ∀ i, i < k → ∃ p j name, l[i]? = some (p, j) ∧ d[j]? = some p ∧
          vkinds[j]? = some name ∧ out[i]? = some (i, p, name) := by
  have hlen : (drain d.length (d.zip (List.range d.length))).length = d.length :=
    drain_length _ _ (by rw [pairs_length])
  refine ⟨drain d.length (d.zip (List.range d.length)),
    drain_perm _ _ (pairs_length d), sorted_lex (drain_sorted _ _ (pairs_nodup d)),
    _, TopK_eq d k vkinds hk hkn hv, ?_, ?_⟩
  · rw [labelled_length, List.length_take, hlen]
    omega
  · intro i hi
    have hil : i < (drain d.length (d.zip (List.range d.length))).length := by
      rw [hlen]; omega
    have hmem : (drain d.length (d.zip (List.range d.length)))[i] ∈
        d.zip (List.range d.length) :=
      drain_subset _ _ _ (List.getElem_mem hil)
    obtain ⟨hd, hj⟩ := pairs_valid d _ hmem
    have hjv : (drain d.length (d.zip (List.range d.length)))[i].2 < vkinds.length :=
      lt_of_lt_of_le hj hv
    refine ⟨(drain d.length (d.zip (List.range d.length)))[i].1,
      (drain d.length (d.zip (List.range d.length)))[i].2,
      vkinds[(drain d.length (d.zip (List.range d.length)))[i].2], ?_, hd, ?_, ?_⟩
    · rw [List.getElem?_eq_getElem hil]
    · rw [List.getElem?_eq_getElem hjv]
    · rw [labelled_getElem?, List.getElem?_take_of_lt hi, List.getElem?_eq_getElem hil]
      simp [List.getD_eq_getElem?_getD, List.getElem?_eq_getElem hjv]

/-- Witness of `TopK_lex_order`: scores `[1/2, 1/2]`, `k = 1`. -/
theorem TopK_lex_order_witness :
    (0 < 1 ∧ 1 ≤ [(1 : ℚ) / 2, 1 / 2].length ∧
      [(1 : ℚ) / 2, 1 / 2].length ≤ ["cat", "dog"].length) ∧
      ∃ l : List (ℚ × Nat),
        l.Perm ([(1 : ℚ) / 2, 1 / 2].zip (List.range [(1 : ℚ) / 2, 1 / 2].length)) ∧
        l.Pairwise (fun x y => y.1 < x.1 ∨ (y.1 = x.1 ∧ y.2 < x.2)) ∧
        ∃ out, TopK [(1 : ℚ) / 2, 1 / 2] [(1 : ℚ) / 2, 1 / 2].length 1 ["cat", "dog"] =
            some out ∧ out.length = 1 ∧
          ∀ i, i < 1 → ∃ p j name, l[i]? = some (p, j) ∧
            [(1 : ℚ) / 2, 1 / 2][j]? = some p ∧
            ["cat", "dog"][j]? = some name ∧ out[i]? = some (i, p, name) :=
  ⟨⟨by decide, by simp, by simp⟩,
    TopK_lex_order [(1 : ℚ) / 2, 1 / 2] 1 ["cat", "dog"] (by decide) (by simp) (by simp)⟩

/-! ## Theorems: the batch loop -/

theorem two_pow_32 : (2 : Nat) ^ 32 = 4294967296 := by norm_num

theorem two_pow_64 : (2 : Nat) ^ 64 = 18446744073709551616 := by norm_num

theorem runSizeAt_eq {N B n : Nat} (hn : n < N) (hfit : N + B ≤ 2 ^ 32) :
    runSizeAt N B n = min B (N - n) := by
  unfold runSizeAt
  rw [two_pow_32] at hfit
  rw [two_pow_32, two_pow_64]
  have h1 : (n + B) % 4294967296 = n + B := Nat.mod_eq_of_lt (by omega)
  rw [h1]
  split
  · have h2 : (N + 18446744073709551616 - n) % 18446744073709551616 = N - n := by omega
    rw [h2, Nat.mod_eq_of_lt (by omega)]
    omega
  · rw [Nat.mod_eq_of_lt (by omega)]
    omega

theorem next_start_eq {N B n : Nat} (hn : n < N) (hfit : N + B ≤ 2 ^ 32) :
    (n + B) % 2 ^ 32 = n + B := by
  rw [two_pow_32] at hfit ⊢
  exact Nat.mod_eq_of_lt (by omega)

theorem batches_count_step {N B n : Nat} (hB : 1 ≤ B) (hn : n < N) :
    (N - n + B - 1) / B = (N - (n + B) + B - 1) / B + 1 := by
  by_cases h : N ≤ n + B
  · have e1 : N - (n + B) + B - 1 = B - 1 := by omega
    have d1 : (B - 1) / B = 0 := Nat.div_eq_of_lt (by omega)
    have e2 : N - n + B - 1 = (N - n - 1) + 1 * B := by omega
    have d2 : (N - n - 1) / B = 0 := Nat.div_eq_of_lt (by omega)
    rw [e1, d1, e2, Nat.add_mul_div_right _ _ (by omega), d2]
  · have e2 : N - n + B - 1 = (N - (n + B) + B - 1) + 1 * B := by omega
    rw [e2, Nat.add_mul_div_right _ _ (by omega)]

theorem batches_count_done {N B n : Nat} (hB : 1 ≤ B) (hn : ¬ n < N) :
    (N - n + B - 1) / B = 0 := by
  have e1 : N - n + B - 1 = B - 1 := by omega
  rw [e1, Nat.div_eq_of_lt (by omega)]

theorem batchLoop_closed {N B : Nat} (hB : 1 ≤ B) (hfit : N + B ≤ 2 ^ 32) :
    ∀ (fuel n : Nat), (N - n + B - 1) / B < fuel →
      batchLoop N B fuel n =
        ((List.range ((N - n + B - 1) / B)).map (fun k => batchAt N B (n + k * B)), true)
  | 0, _, h => absurd h (Nat.not_lt_zero _)
  | fuel + 1, n, h => by
    unfold batchLoop
    by_cases hn : n < N
    · rw [if_pos hn, next_start_eq hn hfit]
      have hc := batches_count_step hB hn
      rw [batchLoop_closed hB hfit fuel (n + B) (by omega), hc, List.range_succ_eq_map]
      simp only [List.map_cons, List.map_map, Nat.zero_mul, Nat.add_zero, Prod.mk.injEq,
        List.cons.injEq, true_and, and_true]
      apply List.map_congr_left
      intro k _
      simp only [Function.comp, Nat.succ_eq_add_one]
      congr 1
      ring
    · rw [if_neg hn, batches_count_done hB hn]
      simp

theorem start_lt_of_lt_count {N B k : Nat} (hB : 1 ≤ B) (hk : k < (N + B - 1) / B) :
    k * B < N := by
  have h1 : (k + 1) * B ≤ N + B - 1 := (Nat.le_div_iff_mul_le (by omega)).mp hk
  have h2 : (k + 1) * B = k * B + B := by ring
  omega

theorem count_mul_ge {N B : Nat} (hB : 1 ≤ B) : N ≤ (N + B - 1) / B * B := by
  have h1 : N + B - 1 < B * ((N + B - 1) / B + 1) := Nat.lt_mul_div_succ _ (by omega)
  have h2 : B * ((N + B - 1) / B + 1) = (N + B - 1) / B * B + B := by ring
  omega

theorem count_cases {N B : Nat} (hB : 1 ≤ B) (hN : 1 ≤ N) :
    (N % B = 0 → (N + B - 1) / B = N / B ∧ 1 ≤ N / B) ∧
      (N % B ≠ 0 → (N + B - 1) / B = N / B + 1) := by
  have hdm : B * (N / B) + N % B = N := Nat.div_add_mod N B
  have hml : N % B < B := Nat.mod_lt _ (by omega)
  constructor
  · intro h0
    have e : N + B - 1 = (B - 1) + (N / B) * B := by
      have : (N / B) * B = B * (N / B) := by ring
      omega
    rw [e, Nat.add_mul_div_right _ _ (by omega), Nat.div_eq_of_lt (by omega)]
    refine ⟨by omega, ?_⟩
    rcases Nat.eq_zero_or_pos (N / B) with hz | hz
    · rw [hz] at hdm; omega
    · exact hz
  · intro h0
    have e : N + B - 1 = (N % B - 1) + (N / B + 1) * B := by
      have : (N / B + 1) * B = B * (N / B) + B := by ring
      omega
    rw [e, Nat.add_mul_div_right _ _ (by omega), Nat.div_eq_of_lt (by omega)]
    omega

theorem ranges_partition (N B : Nat) :
    ∀ c : Nat, (∀ k, k < c → k * B < N) →
      ((List.range c).flatMap fun k => List.range' (k * B) (min B (N - k * B))) =
        List.range' 0 (min (c * B) N)
  | 0, _ => by simp
  | c + 1, h => by
    have hc : c * B < N := h c (by omega)
    rw [List.range_succ, List.flatMap_append,
      ranges_partition N B c (fun k hk => h k (by omega))]
    simp only [List.flatMap_cons, List.flatMap_nil, List.append_nil]
    have e1 : min (c * B) N = c * B := by omega
    have e2 : (c + 1) * B = c * B + B := by ring
    have e3 : min ((c + 1) * B) N = c * B + min B (N - c * B) := by omega
    rw [e1, e3]
    have := List.range'_append_1 0 (c * B) (min B (N - c * B))
    rw [Nat.zero_add] at this
    rw [this, Nat.add_comm]

theorem batchAt_reported {N B n : Nat} (hn : n < N) (hfit : N + B ≤ 2 ^ 32) :
    (batchAt N B n).reported =
      (List.range (min B (N - n))).map (fun i => (i, n + i)) := by
  unfold batchAt
  simp only [runSizeAt_eq hn hfit]
  apply List.map_congr_left
  intro i hi
  have hi' : i < min B (N - n) := List.mem_range.mp hi
  have hlt : n + i < 2 ^ 32 := by
    rw [two_pow_32] at hfit ⊢
    omega
  rw [Nat.mod_eq_of_lt hlt]

theorem reported_images {B N n : Nat} :
    ((List.range (min B (N - n))).map (fun i => (i, n + i))).map Prod.snd =
      List.range' n (min B (N - n)) := by
  rw [List.map_map, List.range'_eq_map_range]
  rfl

/-- The first `fuel` batches of the loop, as long as the start indices stay below the
image count and the `unsigned int` sum `n + batchSize` has not wrapped yet. -/
theorem batchLoop_prefix (N B : Nat) :
    ∀ (fuel n : Nat), (∀ j, j < fuel → n + j * B < N) →
      (∀ j, j + 1 < fuel → n + j * B + B < 2 ^ 32) →
      (batchLoop N B fuel n).1 = (List.range fuel).map (fun k => batchAt N B (n + k * B))
  | 0, _, _, _ => rfl
  | fuel + 1, n, h1, h2 => by
    have hn : n < N := by simpa using h1 0 (by omega)
    unfold batchLoop
    rw [if_pos hn, List.range_succ_eq_map]
    simp only [List.map_cons, List.map_map, Nat.zero_mul, Nat.add_zero, List.cons.injEq,
      true_and]
    rcases Nat.eq_zero_or_pos fuel with h0 | h0
    · subst h0
      rfl
    · have hB : n + B < 2 ^ 32 := by simpa using h2 0 (by omega)
      rw [Nat.mod_eq_of_lt hB, batchLoop_prefix N B fuel (n + B)
        (fun j hj => by
          have := h1 (j + 1) (by omega)
          rw [Nat.succ_mul] at this
          omega)
        (fun j hj => by
          have := h2 (j + 1) (by omega)
          rw [Nat.succ_mul] at this
          omega)]
      apply List.map_congr_left
      intro k _
      simp only [Function.comp, Nat.succ_eq_add_one]
      congr 1
      rw [Nat.succ_mul]
      omega

/-- C4, as stated, fails for image counts near `2^32`: with `N = 2^32 - 1` images and
batch capacity `B = 2^31 - 1`, the third batch starts at `n = 2^32 - 2`, the
`unsigned int` sum `n + batchSize` wraps, and the batch gets `runSize = B` where
`min(B, N - n) = 1`. The same happens with batch capacity `B = 2`: the batch number
`2^31` starts at `n = 2^32 - 2` and gets `runSize = 2` with one image left. -/
theorem batchLoop_wraps :
    ((batchLoop 4294967295 2147483647 3 0).1.map (fun b => (b.n, b.runSize))) =
        [(0, 2147483647), (2147483647, 2147483647), (4294967294, 2147483647)] ∧
      min 2147483647 (4294967295 - 4294967294) = 1 ∧
      ¬ (∀ N B : Nat, 1 ≤ N → 1 ≤ B → ∀ fuel, ∀ b ∈ (batchLoop N B fuel 0).1,
          b.runSize = min B (N - b.n)) ∧
      (∃ b ∈ (batchLoop 4294967295 2 2147483648 0).1,
        b.n = 4294967294 ∧ b.runSize = 2 ∧ min 2 (4294967295 - b.n) = 1) := by
  have h1 : ((batchLoop 4294967295 2147483647 3 0).1.map (fun b => (b.n, b.runSize))) =
      [(0, 2147483647), (2147483647, 2147483647), (4294967294, 2147483647)] := by decide
  refine ⟨h1, by decide, ?_, ?_⟩
  rotate_left
  · have hp := batchLoop_prefix 4294967295 2 2147483648 0
      (fun j hj => by omega) (fun j hj => by norm_num; omega)
    refine ⟨batchAt 4294967295 2 (0 + 2147483647 * 2), ?_, ?_, ?_, ?_⟩
    · rw [hp]
      exact List.mem_map.mpr ⟨2147483647, List.mem_range.mpr (by decide), rfl⟩
    · decide
    · decide
    · decide
  intro hall
  have hm : ((4294967294 : Nat), (2147483647 : Nat)) ∈
      (batchLoop 4294967295 2147483647 3 0).1.map (fun b => (b.n, b.runSize)) := by
    rw [h1]; simp
  obtain ⟨b, hb, e⟩ := List.mem_map.mp hm
  have h2 := hall 4294967295 2147483647 (by decide) (by decide) 3 b hb
  simp only [Prod.mk.injEq] at e
  rw [e.1, e.2] at h2
  exact absurd h2 (by decide)

/-- C4 (amended): for every image count `N ≥ 1` and batch capacity `B ≥ 1` with
`N + B ≤ 2^32` (so that the `unsigned int` sum `n + batchSize` never wraps), the batch
loop exits after exactly `ceil(N/B) = (N + B - 1) / B` batches; batch `k` starts at
`n = k*B` and has `runSize = min(B, N - n)`, so `1 ≤ runSize ≤ B`; it post-processes the
slots `0..runSize-1`, slot `i` for image `n + i`; the final batch has
`runSize = N - B*floor(N/B)`, or `B` when `N` is a multiple of `B`; the ranges
`[n, n+runSize)` in order make up `[0, N)`, and so do the post-processed images. -/
theorem batchLoop_partition (N B : Nat) (hN : 1 ≤ N) (hB : 1 ≤ B) (hfit : N + B ≤ 2 ^ 32) :
    ∃ bs : List Batch,
      (∀ fuel, (N + B - 1) / B < fuel → batchLoop N B fuel 0 = (bs, true)) ∧
      bs.length = (N + B - 1) / B ∧
      (∀ k b, bs[k]? = some b →
        b.n = k * B ∧ b.runSize = min B (N - b.n) ∧ 1 ≤ b.runSize ∧ b.runSize ≤ B ∧
        b.reported = (List.range b.runSize).map (fun i => (i, b.n + i))) ∧
      (∀ b, bs[bs.length - 1]? = some b →
        b.runSize = if N % B = 0 then B else N - B * (N / B)) ∧
      (bs.flatMap (fun b => List.range' b.n b.runSize)) = List.range N ∧
      (bs.flatMap (fun b => b.reported.map Prod.snd)) = List.range N ∧
      (∀ b ∈ bs, ∀ e ∈ b.reported, e.1 < b.runSize) := by
  have hclosed := batchLoop_closed hB hfit
  have key : ∀ k, k < (N + B - 1) / B →
      (batchAt N B (k * B)).n = k * B ∧
      (batchAt N B (k * B)).runSize = min B (N - k * B) ∧
      (batchAt N B (k * B)).reported =
        (List.range (min B (N - k * B))).map (fun i => (i, k * B + i)) ∧ k * B < N := by
    intro k hk
    have hlt := start_lt_of_lt_count hB hk
    exact ⟨rfl, runSizeAt_eq hlt hfit, batchAt_reported hlt hfit, hlt⟩
  have hidx : ∀ k b,
      ((List.range ((N + B - 1) / B)).map (fun k => batchAt N B (k * B)))[k]? = some b →
      k < (N + B - 1) / B ∧ b = batchAt N B (k * B) := by
    intro k b hb
    obtain ⟨hk, e⟩ := List.getElem?_eq_some.mp hb
    have hk' : k < (N + B - 1) / B := by simpa using hk
    refine ⟨hk', ?_⟩
    rw [← e]
    simp
  refine ⟨(List.range ((N + B - 1) / B)).map (fun k => batchAt N B (k * B)), ?_, ?_, ?_, ?_,
    ?_, ?_, ?_⟩
  · intro fuel hf
    have := hclosed fuel 0 (by simpa using hf)
    simpa using this
  · simp
  · intro k b hb
    obtain ⟨hk, rfl⟩ := hidx k b hb
    obtain ⟨e1, e2, e3, hlt⟩ := key k hk
    rw [e1, e2, e3]
    refine ⟨rfl, rfl, ?_, ?_, rfl⟩ <;> omega
  · intro b hb
    obtain ⟨hk, rfl⟩ := hidx _ b hb
    simp only [List.length_map, List.length_range] at hk ⊢
    obtain ⟨_, e2, _, hlt⟩ := key _ hk
    rw [e2]
    obtain ⟨c0, c1⟩ := count_cases hB hN
    have hdm : B * (N / B) + N % B = N := Nat.div_add_mod N B
    have hml : N % B < B := Nat.mod_lt _ (by omega)
    by_cases h0 : N % B = 0
    · rw [if_pos h0]
      obtain ⟨ec, hq⟩ := c0 h0
      rw [ec]
      have e5 : (N / B - 1) * B = B * (N / B) - B := by
        rw [Nat.sub_mul, Nat.one_mul, Nat.mul_comm]
      have e6 : B ≤ B * (N / B) := Nat.le_mul_of_pos_right B hq
      omega
    · rw [if_neg h0, c1 h0]
      have e5 : (N / B + 1 - 1) * B = B * (N / B) := by
        rw [Nat.add_sub_cancel, Nat.mul_comm]
      omega
  · rw [List.flatMap_map]
    have hcong : ∀ k ∈ List.range ((N + B - 1) / B),
        List.range' (batchAt N B (k * B)).n (batchAt N B (k * B)).runSize =
          List.range' (k * B) (min B (N - k * B)) := by
      intro k hk
      obtain ⟨e1, e2, _, _⟩ := key k (List.mem_range.mp hk)
      rw [e1, e2]
    rw [List.flatMap_congr hcong,
      ranges_partition N B _ (fun k hk => start_lt_of_lt_count hB hk)]
    have := count_mul_ge (N := N) hB
    rw [Nat.min_eq_right this, List.range_eq_range']
  · rw [List.flatMap_map]
    have hcong : ∀ k ∈ List.range ((N + B - 1) / B),
        (batchAt N B (k * B)).reported.map Prod.snd =
          List.range' (k * B) (min B (N - k * B)) := by
      intro k hk
      obtain ⟨_, _, e3, _⟩ := key k (List.mem_range.mp hk)
      rw [e3, reported_images]
    rw [List.flatMap_congr hcong,
      ranges_partition N B _ (fun k hk => start_lt_of_lt_count hB hk)]
    have := count_mul_ge (N := N) hB
    rw [Nat.min_eq_right this, List.range_eq_range']
  · intro b hb e he
    obtain ⟨k, hk, rfl⟩ := List.mem_map.mp hb
    obtain ⟨_, e2, e3, _⟩ := key k (List.mem_range.mp hk)
    rw [e3] at he
    rw [e2]
    obtain ⟨i, hi, rfl⟩ := List.mem_map.mp he
    exact List.mem_range.mp hi

/-- Witness of `batchLoop_partition`: 3 images with batch capacity 4 give one batch
of `runSize` 3. -/
theorem batchLoop_partition_witness :
    (1 ≤ 3 ∧ 1 ≤ 4 ∧ 3 + 4 ≤ 2 ^ 32) ∧
      ∃ bs : List Batch,
        (∀ fuel, (3 + 4 - 1) / 4 < fuel → batchLoop 3 4 fuel 0 = (bs, true)) ∧
        bs.length = (3 + 4 - 1) / 4 ∧
        (∀ k b, bs[k]? = some b →
          b.n = k * 4 ∧ b.runSize = min 4 (3 - b.n) ∧ 1 ≤ b.runSize ∧ b.runSize ≤ 4 ∧
          b.reported = (List.range b.runSize).map (fun i => (i, b.n + i))) ∧
        (∀ b, bs[bs.length - 1]? = some b →
          b.runSize = if 3 % 4 = 0 then 4 else 3 - 4 * (3 / 4)) ∧
        (bs.flatMap (fun b => List.range' b.n b.runSize)) = List.range 3 ∧
        (bs.flatMap (fun b => b.reported.map Prod.snd)) = List.range 3 ∧
        (∀ b ∈ bs, ∀ e ∈ b.reported, e.1 < b.runSize) :=
  ⟨⟨by decide, by decide, by decide⟩,
    batchLoop_partition 3 4 (by decide) (by decide) (by decide)⟩

/-! ## Theorems: resize geometry -/

theorem mem_readPositions {H W h w : Nat} :
    (h, w) ∈ readPositions H W ↔ h < H ∧ w < W := by
  simp [readPositions]

/-- When the target is square the resized image has the declared dimensions and every
position read by the quantization loop is inside it. -/
theorem resize_square_in_bounds (S : Nat) :
    image2Dims S S = image2Declared S S ∧
      ∀ p ∈ readPositions S S, (image2Dims S S).contains p = true := by
  refine ⟨rfl, ?_⟩
  rintro ⟨h, w⟩ hp
  obtain ⟨hh, hw⟩ := mem_readPositions.mp hp
  simp [image2Dims, resize, MatDims.contains, hh, hw]

/-- A target higher than wide: the loop reads row `inWidth`, which the resized image
does not have. -/
theorem resize_row_out_of_bounds {H W : Nat} (hW : 0 < W) (hHW : W < H) :
    (W, 0) ∈ readPositions H W ∧ (image2Dims H W).contains (W, 0) = false := by
  refine ⟨mem_readPositions.mpr ⟨hHW, hW⟩, ?_⟩
  simp [image2Dims, resize, MatDims.contains]

/-- C9 fails on the code for a non-square target. With `inHeight = 64` and
`inWidth = 32`, `image2` is declared with 64 rows and 32 columns, but
`resize(image, image2, Size(inHeight, inWidth), ...)` asks for width 64 and height 32,
so the resized image has 32 rows and 64 columns; the quantization loop then reads the
position `(32, 0)`, which is outside it. -/
theorem resize_swaps_rows_cols :
    image2Declared 64 32 = ⟨64, 32⟩ ∧ image2Dims 64 32 = ⟨32, 64⟩ ∧
      (32, 0) ∈ readPositions 64 32 ∧ (image2Dims 64 32).contains (32, 0) = false :=
  ⟨rfl, rfl, (resize_row_out_of_bounds (by decide) (by decide)).1,
    (resize_row_out_of_bounds (H := 64) (W := 32) (by decide) (by decide)).2⟩

/-! ## Theorems: exit status -/

/-- The sibling error paths do end with a nonzero status: a path that is not a
directory, and a label file that cannot be opened, both `exit(1)`. -/
theorem main_exit_one_on_open_errors :
    main ⟨4, 1, false, false, [], true, ["cat"]⟩ = ExitStatus.exited 1 ∧
      main ⟨4, 1, true, true, [⟨DType.DT_REG, "a.jpg"⟩], false, []⟩ = ExitStatus.exited 1 ∧
      main ⟨3, 1, true, true, [⟨DType.DT_REG, "a.jpg"⟩], true, ["cat"]⟩ =
        ExitStatus.exited (-1) := by
  decide

/-- Whenever the argument count is 4, the model has one accelerator subgraph and
`run_CNN` leaves through one of its two early returns, `main` returns 0. -/
theorem main_zero_of_early_return (env : Env) (hargc : env.argc = 4)
    (hsub : env.dpuSubgraphs = 1)
    (hret : run_CNN env = Except.ok RunResult.noImages ∨
      run_CNN env = Except.ok RunResult.noWords) :
    main env = ExitStatus.exited 0 := by
  unfold main
  rw [if_neg (by simp [hargc]), if_neg (by simp [hsub])]
  rcases hret with h | h <;> rw [h]

/-- C5 fails on the code. Started with 4 arguments and a model with one accelerator
subgraph, on a directory without image files (first input) or with an empty label
file (second input), `run_CNN` prints its error and returns early, and `main` then
returns 0. -/
theorem main_exit_zero_on_empty_sets :
    run_CNN ⟨4, 1, true, true, [⟨DType.DT_REG, "notes.txt"⟩], true, ["cat"]⟩ =
        Except.ok RunResult.noImages ∧
      main ⟨4, 1, true, true, [⟨DType.DT_REG, "notes.txt"⟩], true, ["cat"]⟩ =
        ExitStatus.exited 0 ∧
      run_CNN ⟨4, 1, true, true, [⟨DType.DT_REG, "a.jpg"⟩], true, []⟩ =
        Except.ok RunResult.noWords ∧
      main ⟨4, 1, true, true, [⟨DType.DT_REG, "a.jpg"⟩], true, []⟩ = ExitStatus.exited 0 :=
  ⟨by rfl, by decide, by rfl, by decide⟩


end MainInt8
